import Mathlib

/-!
Verification of the span-based anonymization and evaluation engine of the
repository (files `anonymizer_ronec.py`, `anonymizer_template.py`,
`anonymizer_mock.py`, `evaluator.py`).

Modelling conventions:
* a Python string is a list of characters (`Str`);
* the clamping slice `text[a:b]` (nonnegative bounds) is `pySlice`;
* `str.replace(old, new, 1)` is `replaceFirst`;
* the substring test `pat in s` is `containsSub`;
* Python's stable in-place `list.sort(key=lambda s: s["start"])` is the
  stable insertion sort `sortSpans`;
* a bounded recursion (`while` loop with a data-dependent stride) is given
  the list length as structural fuel so that every definition evaluates.
-/

abbrev Str := List Char

/-- Python slice `s[a:b]` for nonnegative bounds: clamps at both ends and is
empty when `b ≤ a`. -/
def pySlice (s : Str) (a b : Nat) : Str := (s.drop a).take (b - a)

/-- Python substring test `pat in s`. -/
def containsSub (s pat : Str) : Bool :=
  if pat.isPrefixOf s then true
  else
    match s with
    | [] => false
    | _ :: rest => containsSub rest pat

/-- Python `s.replace(old, new, 1)`: replace the first occurrence of `old`
only; if `old` does not occur, return `s` unchanged (an empty `old` matches
at position 0, as in Python). -/
def replaceFirst (old new : Str) : Str → Str
  | [] => if old.isPrefixOf [] then new else []
  | c :: rest =>
    if old.isPrefixOf (c :: rest) then new ++ (c :: rest).drop old.length
    else c :: replaceFirst old new rest

/-- Decimal digits of `n` (most significant first), with the first argument
as structural fuel; `natStrAux fuel n` is the decimal string of `n` whenever
`n ≤ fuel` and `0 < n`. -/
def natStrAux : Nat → Nat → Str
  | 0, _ => []
  | _ + 1, 0 => []
  | fuel + 1, n + 1 => natStrAux fuel ((n + 1) / 10) ++ [Nat.digitChar ((n + 1) % 10)]

/-- Python `str(n)` for a natural number: its decimal representation. -/
def natStr (n : Nat) : Str := if n = 0 then ['0'] else natStrAux n n

/-- The placeholder `f"<{label}_{idx}>"` built by the anonymize loop. -/
def placeholder (label : Str) (idx : Nat) : Str :=
  '<' :: (label ++ '_' :: (natStr idx ++ ['>']))

/-- A raw detected span `{start, end, label, text}` as handed to the
anonymize loop by a detector (`predicted_spans` in the sources). -/
structure RawSpan where
  start : Nat
  «end» : Nat
  label : Str
  text : Str
deriving DecidableEq, Repr

/-- A recorded entity `{start, end, label, text, replacement}` as stored in
the metadata by the anonymize loop. -/
structure Entity where
  start : Nat
  «end» : Nat
  label : Str
  text : Str
  replacement : Str
deriving DecidableEq, Repr

/-- The metadata `{"entities": [...]}` returned by `anonymize`. -/
structure Metadata where
  entities : List Entity
deriving DecidableEq, Repr

/-- One step of the stable insertion sort modelling
`predicted_spans.sort(key=lambda s: s["start"])`: insert `sp` before the
first element whose `start` is not smaller (so ties keep the original,
detector-given order, as with Python's stable sort). -/
def insertSpan (sp : RawSpan) : List RawSpan → List RawSpan
  | [] => [sp]
  | x :: xs => if x.start < sp.start then x :: insertSpan sp xs else sp :: x :: xs

/-- Stable sort of the raw spans by ascending `start`. -/
def sortSpans : List RawSpan → List RawSpan
  | [] => []
  | sp :: rest => insertSpan sp (sortSpans rest)

/-- The copy-and-append loop of `AnonymizerRonec.anonymize`
(anonymizer_ronec.py lines 71–88): walk the sorted spans keeping a cursor,
emit the gap `text[cursor:start]`, the placeholder `<label_idx>`, advance
the cursor to `end`, and record the entity whose `text` field is the
original substring `text[start:end]`; after the loop append `text[cursor:]`. -/
def anonLoop (text : Str) : List RawSpan → Nat → Nat → Str × List Entity
  | [], cursor, _ => (text.drop cursor, [])
  | sp :: rest, cursor, idx =>
    let ph := placeholder sp.label idx
    let tail := anonLoop text rest sp.«end» (idx + 1)
    (pySlice text cursor sp.start ++ ph ++ tail.1,
     ⟨sp.start, sp.«end», sp.label, pySlice text sp.start sp.«end», ph⟩ :: tail.2)

/-- `AnonymizerRonec.anonymize` (lines 52–90) restricted to its span
bookkeeping: the detector output is passed in as `rawSpans`; spans with
`end <= start` are discarded (the `if e > s` guard), the rest are sorted
ascending by `start` (stable), and the copy-and-append loop runs with
placeholder indices starting at 1. -/
def anonymize (text : Str) (rawSpans : List RawSpan) : Str × Metadata :=
  let spans := sortSpans (rawSpans.filter (fun s => decide (s.start < s.«end»)))
  let r := anonLoop text spans 0 1
  (r.1, ⟨r.2⟩)

/-- `AnonymizerRonec.deanonymize` (lines 92–99) on well-shaped metadata:
iterate the entities in reverse order, replacing the first occurrence of
each `replacement` by the stored original `text`, exactly once each. -/
def deanonymize (text : Str) (metadata : Metadata) : Str :=
  metadata.entities.reverse.foldl
    (fun result ent => replaceFirst ent.replacement ent.text result) text

/-! ### Dynamic (duck-typed) model of `deanonymize`

`deanonymize` receives `metadata` as an arbitrary Python value; the source
guards only `isinstance(metadata, dict)` and the missing-"entities" key.
`PyVal` models the Python values that can reach it, and `deanonymizePy`
models the exact dynamic behaviour including the exceptions Python raises
on malformed entity records (`ent["replacement"]` KeyError, non-dict
entries TypeError, non-string replacement/text TypeError). -/

/-- Python runtime errors that the dynamic `deanonymize` can raise. -/
inductive PyErr where
  | keyError
  | typeError
deriving DecidableEq, Repr

/-- A Python value, as far as `deanonymize` can observe it. -/
inductive PyVal where
  | none
  | str (s : Str)
  | int (n : Int)
  | bool (b : Bool)
  | list (xs : List PyVal)
  | dict (kvs : List (Str × PyVal))

/-- Python `d.get(key)` on a dict represented as an association list. -/
def dictGet : List (Str × PyVal) → Str → Option PyVal
  | [], _ => Option.none
  | (k, v) :: rest, key => if k = key then some v else dictGet rest key

/-- One iteration of the `for ent in reversed(entities)` body:
`result = result.replace(ent["replacement"], ent["text"], 1)`, with the
errors Python raises on a malformed entity. -/
def entStep (result : Str) (ent : PyVal) : Except PyErr Str :=
  match ent with
  | PyVal.dict kvs =>
    match dictGet kvs ('r' :: "eplacement".toList) with
    | Option.none => Except.error PyErr.keyError
    | some rep =>
      match dictGet kvs "text".toList with
      | Option.none => Except.error PyErr.keyError
      | some orig =>
        match rep, orig with
        | PyVal.str r, PyVal.str o => Except.ok (replaceFirst r o result)
        | _, _ => Except.error PyErr.typeError
  | _ => Except.error PyErr.typeError

/-- The reversed-entities loop, propagating the first error. -/
def deanonLoopPy : List PyVal → Str → Except PyErr Str
  | [], r => Except.ok r
  | e :: rest, r =>
    match entStep r e with
    | Except.ok r2 => deanonLoopPy rest r2
    | Except.error err => Except.error err

/-- `AnonymizerRonec.deanonymize` (lines 92–99) on an arbitrary Python
value: `entities = metadata.get("entities", []) if isinstance(metadata,
dict) else []`, then the reversed replacement loop. -/
def deanonymizePy (text : Str) (metadata : PyVal) : Except PyErr Str :=
  let entities :=
    match metadata with
    | PyVal.dict kvs => (dictGet kvs "entities".toList).getD (PyVal.list [])
    | _ => PyVal.list []
  match entities with
  | PyVal.list xs => deanonLoopPy xs.reverse text
  | _ => Except.error PyErr.typeError

/-! ### Evaluator (`evaluator.py`) -/

/-- `detokenize_with_offsets` (evaluator.py lines 30–47) as a recursion on
the token list: emit each token, record its `(start, end)` offsets, and add
a single space after every non-final token whose `space_after` flag is
true.  The flag list is consumed in step with the tokens (the source indexes
`space_after[i]`, which is in bounds whenever the lists have equal length,
the dataset invariant assumed by the claims). -/
def detokLoop : List Str → List Bool → Nat → Str × List (Nat × Nat)
  | [], _, _ => ([], [])
  | tok :: rest, flags, cursor =>
    let stop := cursor + tok.length
    match rest with
    | [] => (tok, [(cursor, stop)])
    | _ :: _ =>
      let flag := flags.headD false
      let r := detokLoop rest flags.tail (if flag then stop + 1 else stop)
      (tok ++ (if flag then [' '] else []) ++ r.1, (cursor, stop) :: r.2)

/-- `detokenize_with_offsets(tokens, space_after)`. -/
def detokenize_with_offsets (tokens : List Str) (space_after : List Bool) :
    Str × List (Nat × Nat) :=
  detokLoop tokens space_after 0

/-- The cumulative character offset of token `i`: the lengths of the
previous tokens plus one space for each previous (hence non-final) token
whose flag is true.  This is the specification-side description of the
offsets that `detokenize_with_offsets` records. -/
def cumOff : List Str → List Bool → Nat → Nat
  | _, _, 0 => 0
  | [], _, _ + 1 => 0
  | tok :: rest, flags, i + 1 =>
    tok.length + (if rest.isEmpty then 0 else if flags.headD false then 1 else 0)
      + cumOff rest flags.tail i

/-- The scanning loop of `bio2_to_spans` (evaluator.py lines 55–76) over
the tags zipped with the per-token spans; the `Nat` argument is structural
fuel (the list length at the top call), since each step consumes at least
one element.  A `B-` tag opens a span, greedily extended over following
`I-` tags of the same label; any other tag (including an orphan `I-`)
advances by one token and emits nothing. -/
def bioLoop (text : Str) : Nat → List (Str × (Nat × Nat)) → List RawSpan
  | 0, _ => []
  | _ + 1, [] => []
  | fuel + 1, (tag, sp) :: rest =>
    if tag.take 2 == ['B', '-'] then
      let label := tag.drop 2
      let run := rest.takeWhile (fun p => p.1.take 2 == ['I', '-'] && p.1.drop 2 == label)
      let rest2 := rest.dropWhile (fun p => p.1.take 2 == ['I', '-'] && p.1.drop 2 == label)
      let endChar := ((run.map (fun p => p.2)).getLastD sp).2
      ⟨sp.1, endChar, label, pySlice text sp.1 endChar⟩ :: bioLoop text fuel rest2
    else bioLoop text fuel rest

/-- `bio2_to_spans(tokens, tags, space_after)` (evaluator.py lines 50–76). -/
def bio2_to_spans (tokens : List Str) (tags : List Str) (space_after : List Bool) :
    List RawSpan :=
  let r := detokenize_with_offsets tokens space_after
  bioLoop r.1 tokens.length (tags.zip r.2)

/-- The `(start, end)` tuple set built by `Evaluator._to_tuple_set` when
`ignore_labels` is set. -/
def toTupleSet2 (spans : List (Nat × Nat × Str)) : Finset (Nat × Nat) :=
  (spans.map (fun s => (s.1, s.2.1))).toFinset

/-- The `(start, end, label)` tuple set built by `Evaluator._to_tuple_set`
when `ignore_labels` is not set. -/
def toTupleSet3 (spans : List (Nat × Nat × Str)) : Finset (Nat × Nat × Str) :=
  spans.toFinset

/-- The per-example `(tp, fp, fn)` increments of `Evaluator.evaluate`
(lines 145–147): intersection and differences of the two tuple sets. -/
def exCounts (ignore_labels : Bool) (gold pred : List (Nat × Nat × Str)) :
    Nat × Nat × Nat :=
  if ignore_labels then
    ((toTupleSet2 gold ∩ toTupleSet2 pred).card,
     ((toTupleSet2 pred) \ (toTupleSet2 gold)).card,
     ((toTupleSet2 gold) \ (toTupleSet2 pred)).card)
  else
    ((toTupleSet3 gold ∩ toTupleSet3 pred).card,
     ((toTupleSet3 pred) \ (toTupleSet3 gold)).card,
     ((toTupleSet3 gold) \ (toTupleSet3 pred)).card)

/-- The `(start, end, label)` view of a gold span, as `_to_tuple_set`
reads it. -/
def spanTriple (s : RawSpan) : Nat × Nat × Str := (s.start, s.«end», s.label)

/-- The `(start, end, label)` view of a predicted entity, as
`_to_tuple_set` reads it. -/
def entityTriple (e : Entity) : Nat × Nat × Str := (e.start, e.«end», e.label)

/-- A dataset example as `Evaluator.evaluate` consumes it. -/
structure ExampleData where
  text : Str
  gold_spans : List RawSpan

/-- An anonymization client as the Evaluation Driver sees it; its
`deanonymize` may raise (modelled with `Except`). -/
structure Client where
  anonymize : Str → Str × Metadata
  deanonymize : Str → Metadata → Except PyErr Str

/-- The running accumulators of `Evaluator.evaluate` (lines 119–123). -/
structure EvalAcc where
  tp : Nat
  fp : Nat
  fn : Nat
  deanonym_ok : Nat
  total : Nat
deriving DecidableEq, Repr

/-- The metrics dict returned by `Evaluator.evaluate` (lines 153–161). -/
structure EvalMetrics where
  samples : Nat
  true_positives : Nat
  false_positives : Nat
  false_negatives : Nat
  precision : Rat
  «recall» : Rat
  f1 : Rat
deriving DecidableEq, Repr

/-- The body of the per-example loop of `Evaluator.evaluate` (lines
125–147): anonymize, attempt deanonymization inside `try`/`except` (a
failure or mismatch simply does not increment `deanonym_ok`), then add the
tuple-set counts. -/
def evalStep (client : Client) (ignore_labels : Bool) (acc : EvalAcc)
    (ex : ExampleData) : EvalAcc :=
  let r := client.anonymize ex.text
  let pred_spans := r.2.entities
  let ok :=
    match client.deanonymize r.1 r.2 with
    | Except.ok d => if d = ex.text then 1 else 0
    | Except.error _ => 0
  let c := exCounts ignore_labels (ex.gold_spans.map spanTriple)
    (pred_spans.map entityTriple)
  ⟨acc.tp + c.1, acc.fp + c.2.1, acc.fn + c.2.2, acc.deanonym_ok + ok, acc.total + 1⟩

/-- The whole example loop of `Evaluator.evaluate`, from zeroed counters. -/
def evalLoop (client : Client) (ignore_labels : Bool)
    (examples : List ExampleData) : EvalAcc :=
  examples.foldl (evalStep client ignore_labels) ⟨0, 0, 0, 0, 0⟩

/-- `Evaluator.evaluate` (lines 115–161): run the loop, then compute micro
precision `tp/(tp+fp)`, recall `tp/(tp+fn)` and F1 `2PR/(P+R)`, each `0.0`
when its denominator is zero.  Exact rational arithmetic models Python's
float division (all values the claims mention are exactly representable). -/
def evaluate (client : Client) (ignore_labels : Bool)
    (examples : List ExampleData) : EvalMetrics :=
  let acc := evalLoop client ignore_labels examples
  let precision : Rat :=
    if acc.tp + acc.fp > 0 then (acc.tp : Rat) / ((acc.tp : Rat) + (acc.fp : Rat)) else 0
  let rcl : Rat :=
    if acc.tp + acc.fn > 0 then (acc.tp : Rat) / ((acc.tp : Rat) + (acc.fn : Rat)) else 0
  let f1 : Rat :=
    if precision + rcl > 0 then 2 * precision * rcl / (precision + rcl) else 0
  ⟨acc.total, acc.tp, acc.fp, acc.fn, precision, rcl, f1⟩

/-- Two spans do not overlap: one ends before the other starts. -/
def NonOverlap (a b : RawSpan) : Prop := a.«end» ≤ b.start ∨ b.«end» ≤ a.start

instance : DecidableEq (Except PyErr Str) := fun a b =>
  match a, b with
  | Except.ok x, Except.ok y =>
    decidable_of_iff (x = y) ⟨fun h => by rw [h], fun h => by cases h; rfl⟩
  | Except.error x, Except.error y =>
    decidable_of_iff (x = y) ⟨fun h => by rw [h], fun h => by cases h; rfl⟩
  | Except.ok _, Except.error _ => isFalse (fun h => by cases h)
  | Except.error _, Except.ok _ => isFalse (fun h => by cases h)

/-! ### Small facts about the definitions -/

theorem length_insertSpan (sp : RawSpan) (l : List RawSpan) :
    (insertSpan sp l).length = l.length + 1 := by
  induction l with
  | nil => rfl
  | cons x xs ih => by_cases h : x.start < sp.start <;> simp [insertSpan, h, ih]

theorem length_sortSpans (l : List RawSpan) : (sortSpans l).length = l.length := by
  induction l with
  | nil => rfl
  | cons sp rest ih => simp [sortSpans, length_insertSpan, ih]

theorem anonLoop_ents_length (text : Str) (l : List RawSpan) (c i : Nat) :
    (anonLoop text l c i).2.length = l.length := by
  induction l generalizing c i with
  | nil => rfl
  | cons sp rest ih => simp [anonLoop, ih]

/-! ### Claim theorems -/

/-- C5 counterexample: on tokens `["Ion","Popescu","merge"]`, tags
`["B-PERSON","I-PERSON","O"]`, space_after `[true,true,false]`, the code
does not return the claimed span `{start:0, end:12}`: "Ion Popescu" covers
characters `[0, 11)`, so the end offset is 11, not 12. -/
theorem bio2_person_counterexample :
    bio2_to_spans ["Ion".toList, "Popescu".toList, "merge".toList]
      ["B-PERSON".toList, "I-PERSON".toList, "O".toList] [true, true, false]
      ≠ [⟨0, 12, "PERSON".toList, "Ion Popescu".toList⟩] := by decide

/-- C5 (amended): on tokens `["Ion","Popescu","merge"]`, tags
`["B-PERSON","I-PERSON","O"]`, space_after `[true,true,false]`,
`bio2_to_spans` returns exactly one span
`{start: 0, end: 11, label: "PERSON", text: "Ion Popescu"}`. -/
theorem bio2_person_example :
    bio2_to_spans ["Ion".toList, "Popescu".toList, "merge".toList]
      ["B-PERSON".toList, "I-PERSON".toList, "O".toList] [true, true, false]
      = [⟨0, 11, "PERSON".toList, "Ion Popescu".toList⟩] := by decide

/-- C7: `anonymize` is total and never rejects overlapping input: for every
text and every raw span list it returns a pair in which every span with
`start < end` — overlapping or not — contributes exactly one recorded
entity; and on the concrete overlapping input `[(0,3,A),(1,4,B)]` over
"abcd" the output is accepted but corrupted (the round trip fails). -/
theorem anonymize_never_rejects :
    (∀ (text : Str) (raws : List RawSpan),
      (anonymize text raws).2.entities.length
        = (raws.filter (fun s => decide (s.start < s.«end»))).length) ∧
    (anonymize "abcd".toList [⟨0, 3, ['A'], []⟩, ⟨1, 4, ['B'], []⟩]).1
      = "<A_1><B_2>".toList ∧
    deanonymize (anonymize "abcd".toList [⟨0, 3, ['A'], []⟩, ⟨1, 4, ['B'], []⟩]).1
      (anonymize "abcd".toList [⟨0, 3, ['A'], []⟩, ⟨1, 4, ['B'], []⟩]).2
      ≠ "abcd".toList := by
  refine ⟨fun text raws => ?_, by decide, by decide⟩
  simp [anonymize, anonLoop_ents_length, length_sortSpans]

/-- C1 counterexample: the unconditional round-trip law fails.  The source
text `"<A_1> x"` already contains the placeholder string `<A_1>`; with the
single well-formed span `(6,7,"A")` (covering `"x"`, inside bounds,
trivially non-overlapping), `replace(…, 1)` substitutes at the literal
occurrence first and the reconstruction differs from the original text. -/
theorem round_trip_counterexample :
    (∀ sp ∈ [(⟨6, 7, ['A'], []⟩ : RawSpan)],
        sp.start < sp.«end» ∧ sp.«end» ≤ "<A_1> x".toList.length) ∧
    List.Pairwise NonOverlap [(⟨6, 7, ['A'], []⟩ : RawSpan)] ∧
    deanonymize (anonymize "<A_1> x".toList [⟨6, 7, ['A'], []⟩]).1
      (anonymize "<A_1> x".toList [⟨6, 7, ['A'], []⟩]).2
      ≠ "<A_1> x".toList := by
  refine ⟨by decide, by simp, by decide⟩

/-- C10 counterexample: `deanonymize` can raise.  On the metadata value
`{"entities": [{}]}` — a mapping whose entity record lacks the
`"replacement"` key — the lookup `ent["replacement"]` raises `KeyError`,
so it is not true that deanonymize never raises for every metadata value. -/
theorem deanonymizePy_counterexample :
    deanonymizePy "x".toList
      (PyVal.dict [("entities".toList, PyVal.list [PyVal.dict []])])
      = Except.error PyErr.keyError := by rfl

/-! ### Detokenizer lemmas (claim C3) -/

theorem detokLoop_two (tok r : Str) (rs : List Str) (flags : List Bool) (c : Nat) :
    detokLoop (tok :: r :: rs) flags c
      = ((tok ++ (if flags.headD false then [' '] else []))
          ++ (detokLoop (r :: rs) flags.tail
            (if flags.headD false then c + tok.length + 1 else c + tok.length)).1,
         (c, c + tok.length) :: (detokLoop (r :: rs) flags.tail
            (if flags.headD false then c + tok.length + 1 else c + tok.length)).2) := rfl

theorem cumOff_two (tok : Str) (rest : List Str) (r : Str) (flags : List Bool) (i : Nat)
    (hr : rest = r :: rest.tail) :
    cumOff (tok :: rest) flags (i + 1)
      = tok.length + (if flags.headD false then 1 else 0) + cumOff rest flags.tail i := by
  rw [hr]; simp [cumOff]

theorem detok_spans_length (toks : List Str) (flags : List Bool) (c : Nat) :
    (detokLoop toks flags c).2.length = toks.length := by
  induction toks generalizing flags c with
  | nil => rfl
  | cons tok rest ih =>
    cases rest with
    | nil => rfl
    | cons r rs => rw [detokLoop_two]; simp [ih]

theorem detok_fst_cursor (toks : List Str) (flags : List Bool) (c c' : Nat) :
    (detokLoop toks flags c).1 = (detokLoop toks flags c').1 := by
  induction toks generalizing flags c c' with
  | nil => rfl
  | cons tok rest ih =>
    cases rest with
    | nil => rfl
    | cons r rs =>
      rw [detokLoop_two, detokLoop_two]
      simp only []
      rw [ih flags.tail (if flags.headD false then c + tok.length + 1 else c + tok.length)
        (if flags.headD false then c' + tok.length + 1 else c' + tok.length)]

theorem detok_spans_get (toks : List Str) (flags : List Bool) (c i : Nat)
    (h : i < toks.length) :
    (detokLoop toks flags c).2[i]? =
      some (c + cumOff toks flags i, c + cumOff toks flags i + (toks[i]).length) := by
  induction toks generalizing flags c i with
  | nil => exact absurd h (by simp)
  | cons tok rest ih =>
    cases rest with
    | nil =>
      have hi : i = 0 := by simpa using h
      subst hi
      simp [detokLoop, cumOff]
    | cons r rs =>
      cases i with
      | zero => rw [detokLoop_two]; simp [cumOff]
      | succ j =>
        have hj : j < (r :: rs).length := by simpa using h
        rw [detokLoop_two]
        have hcum := cumOff_two tok (r :: rs) r flags j rfl
        simp only [List.getElem?_cons_succ, List.getElem_cons_succ, hcum]
        rw [ih _ _ j hj]
        simp only [Option.some.injEq, Prod.mk.injEq]
        split_ifs <;> constructor <;> omega

theorem detok_slice (toks : List Str) (flags : List Bool) (c i : Nat)
    (h : i < toks.length) :
    pySlice (detokLoop toks flags c).1 (cumOff toks flags i)
      (cumOff toks flags i + (toks[i]).length) = toks[i] := by
  induction toks generalizing flags c i with
  | nil => exact absurd h (by simp)
  | cons tok rest ih =>
    cases rest with
    | nil =>
      have hi : i = 0 := by simpa using h
      subst hi
      simp [detokLoop, cumOff, pySlice]
    | cons r rs =>
      cases i with
      | zero =>
        rw [detokLoop_two]
        simp only [cumOff, pySlice, List.getElem_cons_zero, List.drop_zero,
          Nat.zero_add, Nat.sub_zero]
        rw [List.take_append_eq_append_take]
        simp
      | succ j =>
        have hj : j < (r :: rs).length := by simpa using h
        have key := ih flags.tail (if flags.headD false then c + tok.length + 1
          else c + tok.length) j hj
        rw [detokLoop_two]
        have hcum := cumOff_two tok (r :: rs) r flags j rfl
        simp only [List.getElem_cons_succ, hcum]
        set sep : Str := if flags.headD false then [' '] else [] with hsep
        set t' := (detokLoop (r :: rs) flags.tail
          (if flags.headD false then c + tok.length + 1 else c + tok.length)).1 with ht'
        have hlen : (tok ++ sep).length
            = tok.length + (if flags.headD false then 1 else 0) := by
          rw [hsep]
          by_cases hf : flags.headD false
          · rw [if_pos hf, if_pos hf]; simp
          · rw [if_neg hf, if_neg hf]; simp
        set a := cumOff (r :: rs) flags.tail j with ha
        set L := ((r :: rs)[j]).length with hL
        show pySlice ((tok ++ sep) ++ t')
          (tok.length + (if flags.headD false then 1 else 0) + a)
          (tok.length + (if flags.headD false then 1 else 0) + a + L) = (r :: rs)[j]
        unfold pySlice
        have hd : ((tok ++ sep) ++ t').drop
            (tok.length + (if flags.headD false then 1 else 0) + a)
            = t'.drop a := by
          rw [← hlen, List.drop_append]
        rw [hd]
        have hsub : tok.length + (if flags.headD false then 1 else 0) + a + L
            - (tok.length + (if flags.headD false then 1 else 0) + a)
            = a + L - a := by omega
        rw [hsub]
        exact key

/-- C3: for every token sequence with a valid flag list (the dataset
invariant: one flag per token, or one per non-final token),
`detokenize_with_offsets` records for token `i` exactly the span
`(cumOff i, cumOff i + len(tokens[i]))` where `cumOff` adds a single space
after each non-final token whose flag is true; slicing the returned text at
each recorded span reproduces the original tokens; and the empty token list
yields empty text and an empty span list. -/
theorem detokenize_round_trip (tokens : List Str) (space_after : List Bool)
    (hlen : tokens.length ≤ space_after.length + 1) :
    ((detokenize_with_offsets tokens space_after).2.length = tokens.length) ∧
    (∀ i, i < tokens.length →
      (detokenize_with_offsets tokens space_after).2[i]? =
        some (cumOff tokens space_after i,
          cumOff tokens space_after i + ((tokens.getD i [])).length)) ∧
    (∀ i, i < tokens.length →
      pySlice (detokenize_with_offsets tokens space_after).1
        (cumOff tokens space_after i)
        (cumOff tokens space_after i + ((tokens.getD i [])).length)
        = tokens.getD i []) ∧
    ((detokenize_with_offsets [] []).1 = [] ∧ (detokenize_with_offsets [] []).2 = []) := by
  refine ⟨detok_spans_length tokens space_after 0, fun i hi => ?_, fun i hi => ?_,
    rfl, rfl⟩
  · have := detok_spans_get tokens space_after 0 i hi
    rw [List.getD_eq_getElem _ _ hi]
    simpa [detokenize_with_offsets] using this
  · have := detok_slice tokens space_after 0 i hi
    rw [List.getD_eq_getElem _ _ hi]
    simpa [detokenize_with_offsets] using this

/-! ### BIO2 lemmas (claim C6) -/

theorem bioLoop_count (text : Str) (f : Nat) (L : List (Str × (Nat × Nat)))
    (hf : L.length ≤ f) :
    (bioLoop text f L).length = L.countP (fun p => p.1.take 2 == ['B', '-']) := by
  induction f generalizing L with
  | zero =>
    have : L = [] := List.length_eq_zero.1 (Nat.le_zero.1 hf)
    subst this; rfl
  | succ f ih =>
    cases L with
    | nil => rfl
    | cons p rest =>
      obtain ⟨tag, sp⟩ := p
      by_cases hb : tag.take 2 == ['B', '-']
      · have hrest2 : (rest.dropWhile
            (fun p => p.1.take 2 == ['I', '-'] && p.1.drop 2 == tag.drop 2)).length ≤ f := by
          have h1 : (rest.dropWhile (fun p : Str × (Nat × Nat) =>
              p.1.take 2 == ['I', '-'] && p.1.drop 2 == tag.drop 2)).length ≤ rest.length :=
            (List.dropWhile_suffix _).length_le
          have h2 : rest.length + 1 ≤ f + 1 := by simpa using hf
          omega
        have hrun : (rest.takeWhile (fun p : Str × (Nat × Nat) =>
            p.1.take 2 == ['I', '-'] && p.1.drop 2 == tag.drop 2)).countP
            (fun p => p.1.take 2 == ['B', '-']) = 0 := by
          rw [List.countP_eq_zero]
          intro a ha
          have hq := List.mem_takeWhile_imp ha
          have hI : a.1.take 2 = ['I', '-'] := by
            simp only [Bool.and_eq_true, beq_iff_eq] at hq
            exact hq.1
          simp [hI]
        have hsplit : rest.takeWhile (fun p : Str × (Nat × Nat) =>
              p.1.take 2 == ['I', '-'] && p.1.drop 2 == tag.drop 2)
            ++ rest.dropWhile (fun p : Str × (Nat × Nat) =>
              p.1.take 2 == ['I', '-'] && p.1.drop 2 == tag.drop 2) = rest :=
          List.takeWhile_append_dropWhile ..
        simp only [bioLoop, hb, if_true, List.length_cons]
        rw [ih _ hrest2, List.countP_cons, if_pos hb]
        conv_rhs => rw [← hsplit]
        rw [List.countP_append, hrun]
        omega
      · have hrest : rest.length ≤ f := by
          have : rest.length + 1 ≤ f + 1 := by simpa using hf
          omega
        simp only [bioLoop, hb, if_false, Bool.false_eq_true]
        rw [ih _ hrest, List.countP_cons, if_neg hb]
        omega

/-- C6: spans are produced exactly by `B-` tags — orphan `I-` tags produce
nothing.  For every aligned tag sequence the number of produced spans
equals the number of `B-` tags (so a tag sequence without any `B-` tag,
whatever its `I-` tags, yields no spans), and in particular the tags
`["O","I-PERSON","O"]` yield zero spans. -/
theorem orphan_I_produces_no_span (tokens tags : List Str) (space_after : List Bool)
    (hlen : tags.length = tokens.length) :
    ((bio2_to_spans tokens tags space_after).length
        = tags.countP (fun t => t.take 2 == ['B', '-'])) ∧
    (tags.countP (fun t => t.take 2 == ['B', '-']) = 0 →
        bio2_to_spans tokens tags space_after = []) ∧
    (bio2_to_spans ["a".toList, "b".toList, "c".toList]
        ["O".toList, "I-PERSON".toList, "O".toList] [true, true, false] = []) := by
  have hzl : (tags.zip (detokenize_with_offsets tokens space_after).2).length
      = tokens.length := by
    rw [List.length_zip]
    simp only [detokenize_with_offsets]
    rw [detok_spans_length, hlen, Nat.min_self]
  have hmain : (bio2_to_spans tokens tags space_after).length
      = tags.countP (fun t => t.take 2 == ['B', '-']) := by
    show (bioLoop (detokenize_with_offsets tokens space_after).1 tokens.length
      (tags.zip (detokenize_with_offsets tokens space_after).2)).length = _
    rw [bioLoop_count _ _ _ (le_of_eq hzl)]
    have hfst : (tags.zip (detokenize_with_offsets tokens space_after).2).map Prod.fst
        = tags := by
      apply List.map_fst_zip
      simp only [detokenize_with_offsets]
      rw [detok_spans_length, hlen]
    conv_rhs => rw [← hfst]
    rw [List.countP_map]
    rfl
  refine ⟨hmain, fun h0 => ?_, by decide⟩
  have := hmain.trans h0
  exact List.length_eq_zero.1 this

/-- C6 witness: the theorem applied at the aligned concrete input
`tokens = ["a","b","c"]`, `tags = ["O","I-PERSON","O"]`. -/
theorem orphan_I_produces_no_span_witness :
    (["O".toList, "I-PERSON".toList, "O".toList].length
        = ["a".toList, "b".toList, "c".toList].length) ∧
    (bio2_to_spans ["a".toList, "b".toList, "c".toList]
        ["O".toList, "I-PERSON".toList, "O".toList] [true, true, false]).length
      = ["O".toList, "I-PERSON".toList, "O".toList].countP
          (fun t => t.take 2 == ['B', '-']) :=
  ⟨by decide, (orphan_I_produces_no_span ["a".toList, "b".toList, "c".toList]
    ["O".toList, "I-PERSON".toList, "O".toList] [true, true, false] (by decide)).1⟩

/-- C3 witness: the theorem applied at tokens `["ab","c"]` with flags
`[true,false]`. -/
theorem detokenize_round_trip_witness :
    (["ab".toList, "c".toList].length ≤ [true, false].length + 1) ∧
    ((detokenize_with_offsets ["ab".toList, "c".toList] [true, false]).2.length = 2 ∧
      pySlice (detokenize_with_offsets ["ab".toList, "c".toList] [true, false]).1
        (cumOff ["ab".toList, "c".toList] [true, false] 1)
        (cumOff ["ab".toList, "c".toList] [true, false] 1
          + ((["ab".toList, "c".toList].getD 1 [])).length)
        = ["ab".toList, "c".toList].getD 1 []) := by
  refine ⟨by decide, ?_, ?_⟩
  · exact (detokenize_round_trip ["ab".toList, "c".toList] [true, false] (by decide)).1
  · exact (detokenize_round_trip ["ab".toList, "c".toList] [true, false]
      (by decide)).2.2.1 1 (by decide)

/-! ### Evaluator lemmas (claims C4, C8, C9) -/

theorem evalLoop_total (client : Client) (ib : Bool) :
    ∀ (es : List ExampleData) (acc : EvalAcc),
      (es.foldl (evalStep client ib) acc).total = acc.total + es.length := by
  intro es
  induction es with
  | nil => intro acc; simp
  | cons ex rest ih =>
    intro acc
    rw [List.foldl_cons, ih]
    show (evalStep client ib acc ex).total + rest.length = acc.total + (rest.length + 1)
    simp [evalStep]
    omega

theorem evalLoop_counts_eq (c1 c2 : Client) (ib : Bool)
    (h : c1.anonymize = c2.anonymize) :
    ∀ (es : List ExampleData) (a1 a2 : EvalAcc),
      a1.tp = a2.tp → a1.fp = a2.fp → a1.fn = a2.fn →
      ((es.foldl (evalStep c1 ib) a1).tp = (es.foldl (evalStep c2 ib) a2).tp ∧
       (es.foldl (evalStep c1 ib) a1).fp = (es.foldl (evalStep c2 ib) a2).fp ∧
       (es.foldl (evalStep c1 ib) a1).fn = (es.foldl (evalStep c2 ib) a2).fn) := by
  intro es
  induction es with
  | nil => intro a1 a2 h1 h2 h3; exact ⟨h1, h2, h3⟩
  | cons ex rest ih =>
    intro a1 a2 h1 h2 h3
    rw [List.foldl_cons, List.foldl_cons]
    apply ih
    · show a1.tp + _ = a2.tp + _
      rw [h1, h]
    · show a1.fp + _ = a2.fp + _
      rw [h2, h]
    · show a1.fn + _ = a2.fn + _
      rw [h3, h]

theorem evalLoop_ok_count (c : Client) (ib : Bool) :
    ∀ (es : List ExampleData) (acc : EvalAcc),
      (es.foldl (evalStep c ib) acc).deanonym_ok
        = acc.deanonym_ok + es.countP (fun ex =>
            decide (c.deanonymize (c.anonymize ex.text).1 (c.anonymize ex.text).2
              = Except.ok ex.text)) := by
  intro es
  induction es with
  | nil => intro acc; simp
  | cons ex rest ih =>
    intro acc
    rw [List.foldl_cons, ih, List.countP_cons]
    have hstep : (evalStep c ib acc ex).deanonym_ok
        = acc.deanonym_ok + (if decide (c.deanonymize (c.anonymize ex.text).1
            (c.anonymize ex.text).2 = Except.ok ex.text) = true then 1 else 0) := by
      show acc.deanonym_ok + _ = _
      congr 1
      cases hr : c.deanonymize (c.anonymize ex.text).1 (c.anonymize ex.text).2 with
      | ok d =>
        simp only [decide_eq_true_eq, Except.ok.injEq]
      | error e => simp
    rw [hstep]
    omega

/-- C9: for every pair of clients with the same `anonymize` behaviour (so
differing only in whether/where `deanonymize` raises), the evaluation run
processes every example (`total` = number of examples), produces identical
tp/fp/fn counts (a deanonymization error never disturbs scoring of that
example or of later ones), counts `deanonym_ok` exactly on the examples
whose deanonymization returns the original text without raising (an error
is a fidelity failure, never fatal), and `evaluate` reports the final
metrics of the completed run. -/
theorem deanonymize_errors_caught (c1 c2 : Client) (ib : Bool)
    (examples : List ExampleData) (h : c1.anonymize = c2.anonymize) :
    (evalLoop c1 ib examples).total = examples.length ∧
    (evalLoop c1 ib examples).tp = (evalLoop c2 ib examples).tp ∧
    (evalLoop c1 ib examples).fp = (evalLoop c2 ib examples).fp ∧
    (evalLoop c1 ib examples).fn = (evalLoop c2 ib examples).fn ∧
    (evalLoop c1 ib examples).deanonym_ok
      = examples.countP (fun ex =>
          decide (c1.deanonymize (c1.anonymize ex.text).1 (c1.anonymize ex.text).2
            = Except.ok ex.text)) ∧
    (evaluate c1 ib examples).samples = examples.length ∧
    (evaluate c1 ib examples).true_positives = (evalLoop c1 ib examples).tp := by
  have htot : (evalLoop c1 ib examples).total = examples.length := by
    show (examples.foldl (evalStep c1 ib) ⟨0, 0, 0, 0, 0⟩).total = _
    rw [evalLoop_total]
    simp
  have hcnt := evalLoop_counts_eq c1 c2 ib h examples ⟨0, 0, 0, 0, 0⟩ ⟨0, 0, 0, 0, 0⟩
    rfl rfl rfl
  have hok := evalLoop_ok_count c1 ib examples ⟨0, 0, 0, 0, 0⟩
  exact ⟨htot, hcnt.1, hcnt.2.1, hcnt.2.2, by simpa using hok,
    by show (evalLoop c1 ib examples).total = _; exact htot, rfl⟩

/-- C9 witness: the theorem applied to two concrete clients agreeing on
`anonymize`, one of whose `deanonymize` always raises. -/
theorem deanonymize_errors_caught_witness :
    (evalLoop (⟨fun t => (t, ⟨[]⟩), fun _ _ => Except.error PyErr.typeError⟩ : Client)
        false [⟨['a'], []⟩]).total = 1 ∧
    (evalLoop (⟨fun t => (t, ⟨[]⟩), fun _ _ => Except.error PyErr.typeError⟩ : Client)
        false [⟨['a'], []⟩]).deanonym_ok = 0 := by
  have H := deanonymize_errors_caught
    (⟨fun t => (t, ⟨[]⟩), fun _ _ => Except.error PyErr.typeError⟩ : Client)
    (⟨fun t => (t, ⟨[]⟩), fun t _ => Except.ok t⟩ : Client)
    false [⟨['a'], []⟩] rfl
  refine ⟨H.1.trans (by decide), H.2.2.2.2.1.trans (by decide)⟩

theorem evaluate_eq (client : Client) (ib : Bool) (examples : List ExampleData) :
    evaluate client ib examples
      = ⟨(evalLoop client ib examples).total, (evalLoop client ib examples).tp,
         (evalLoop client ib examples).fp, (evalLoop client ib examples).fn,
         (if (evalLoop client ib examples).tp + (evalLoop client ib examples).fp > 0
          then ((evalLoop client ib examples).tp : Rat)
            / (((evalLoop client ib examples).tp : Rat)
              + ((evalLoop client ib examples).fp : Rat))
          else 0),
         (if (evalLoop client ib examples).tp + (evalLoop client ib examples).fn > 0
          then ((evalLoop client ib examples).tp : Rat)
            / (((evalLoop client ib examples).tp : Rat)
              + ((evalLoop client ib examples).fn : Rat))
          else 0),
         (if (if (evalLoop client ib examples).tp + (evalLoop client ib examples).fp > 0
              then ((evalLoop client ib examples).tp : Rat)
                / (((evalLoop client ib examples).tp : Rat)
                  + ((evalLoop client ib examples).fp : Rat))
              else 0)
            + (if (evalLoop client ib examples).tp + (evalLoop client ib examples).fn > 0
              then ((evalLoop client ib examples).tp : Rat)
                / (((evalLoop client ib examples).tp : Rat)
                  + ((evalLoop client ib examples).fn : Rat))
              else 0) > 0
          then 2 * (if (evalLoop client ib examples).tp
                + (evalLoop client ib examples).fp > 0
              then ((evalLoop client ib examples).tp : Rat)
                / (((evalLoop client ib examples).tp : Rat)
                  + ((evalLoop client ib examples).fp : Rat))
              else 0)
              * (if (evalLoop client ib examples).tp
                  + (evalLoop client ib examples).fn > 0
                then ((evalLoop client ib examples).tp : Rat)
                  / (((evalLoop client ib examples).tp : Rat)
                    + ((evalLoop client ib examples).fn : Rat))
                else 0)
              / ((if (evalLoop client ib examples).tp
                  + (evalLoop client ib examples).fp > 0
                then ((evalLoop client ib examples).tp : Rat)
                  / (((evalLoop client ib examples).tp : Rat)
                    + ((evalLoop client ib examples).fp : Rat))
                else 0)
                + (if (evalLoop client ib examples).tp
                    + (evalLoop client ib examples).fn > 0
                  then ((evalLoop client ib examples).tp : Rat)
                    / (((evalLoop client ib examples).tp : Rat)
                      + ((evalLoop client ib examples).fn : Rat))
                  else 0))
          else 0)⟩ := rfl

/-- C8: for every corpus run, precision is `tp/(tp+fp)`, recall is
`tp/(tp+fn)` and F1 is `2PR/(P+R)` over the summed counts, and each metric
is `0.0` — never an error — when its denominator is zero; in particular a
run whose every example has empty gold and empty predicted sets reports
precision = recall = F1 = 0. -/
theorem metrics_zero_denominators (client : Client) (ib : Bool)
    (examples : List ExampleData) :
    ((evaluate client ib examples).true_positives
        + (evaluate client ib examples).false_positives > 0 →
      (evaluate client ib examples).precision
        = ((evaluate client ib examples).true_positives : Rat)
          / (((evaluate client ib examples).true_positives : Rat)
            + ((evaluate client ib examples).false_positives : Rat))) ∧
    ((evaluate client ib examples).true_positives
        + (evaluate client ib examples).false_positives = 0 →
      (evaluate client ib examples).precision = 0) ∧
    ((evaluate client ib examples).true_positives
        + (evaluate client ib examples).false_negatives > 0 →
      (evaluate client ib examples).«recall»
        = ((evaluate client ib examples).true_positives : Rat)
          / (((evaluate client ib examples).true_positives : Rat)
            + ((evaluate client ib examples).false_negatives : Rat))) ∧
    ((evaluate client ib examples).true_positives
        + (evaluate client ib examples).false_negatives = 0 →
      (evaluate client ib examples).«recall» = 0) ∧
    ((evaluate client ib examples).precision
        + (evaluate client ib examples).«recall» > 0 →
      (evaluate client ib examples).f1
        = 2 * (evaluate client ib examples).precision
            * (evaluate client ib examples).«recall»
          / ((evaluate client ib examples).precision
            + (evaluate client ib examples).«recall»)) ∧
    ((evaluate client ib examples).precision
        + (evaluate client ib examples).«recall» = 0 →
      (evaluate client ib examples).f1 = 0) ∧
    ((evaluate (⟨fun t => (t, ⟨[]⟩), fun t _ => Except.ok t⟩ : Client) false
        [⟨[], []⟩]).precision = 0 ∧
      (evaluate (⟨fun t => (t, ⟨[]⟩), fun t _ => Except.ok t⟩ : Client) false
        [⟨[], []⟩]).«recall» = 0 ∧
      (evaluate (⟨fun t => (t, ⟨[]⟩), fun t _ => Except.ok t⟩ : Client) false
        [⟨[], []⟩]).f1 = 0) := by
  rw [evaluate_eq]
  dsimp only
  refine ⟨fun h => by rw [if_pos h], fun h => by rw [if_neg (by omega)],
    fun h => by rw [if_pos h], fun h => by rw [if_neg (by omega)],
    fun h => by rw [if_pos h], fun h => by rw [if_neg (by rw [h]; exact lt_irrefl 0)], ?_⟩
  have ha : evalLoop (⟨fun t => (t, ⟨[]⟩), fun t _ => Except.ok t⟩ : Client) false
      [⟨[], []⟩] = ⟨0, 0, 0, 1, 1⟩ := by decide
  rw [evaluate_eq, ha]
  norm_num

/-- C8 witness: the theorem applied at a concrete run with one scored
example (tp = 1, fp = 1), discharging the nonzero-denominator hypothesis. -/
theorem metrics_zero_denominators_witness :
    (evaluate (⟨fun _ => ([], ⟨[⟨0, 3, "PERSON".toList, [], []⟩]⟩),
        fun t _ => Except.ok t⟩ : Client) false
      [⟨[], [⟨0, 3, "PERSON".toList, []⟩, ⟨10, 14, "ORG".toList, []⟩]⟩]).precision
      = ((evaluate (⟨fun _ => ([], ⟨[⟨0, 3, "PERSON".toList, [], []⟩]⟩),
          fun t _ => Except.ok t⟩ : Client) false
        [⟨[], [⟨0, 3, "PERSON".toList, []⟩, ⟨10, 14, "ORG".toList, []⟩]⟩]).true_positives : Rat)
        / (((evaluate (⟨fun _ => ([], ⟨[⟨0, 3, "PERSON".toList, [], []⟩]⟩),
            fun t _ => Except.ok t⟩ : Client) false
          [⟨[], [⟨0, 3, "PERSON".toList, []⟩, ⟨10, 14, "ORG".toList, []⟩]⟩]).true_positives : Rat)
          + ((evaluate (⟨fun _ => ([], ⟨[⟨0, 3, "PERSON".toList, [], []⟩]⟩),
              fun t _ => Except.ok t⟩ : Client) false
            [⟨[], [⟨0, 3, "PERSON".toList, []⟩, ⟨10, 14, "ORG".toList, []⟩]⟩]).false_positives : Rat)) :=
  (metrics_zero_denominators
    (⟨fun _ => ([], ⟨[⟨0, 3, "PERSON".toList, [], []⟩]⟩),
      fun t _ => Except.ok t⟩ : Client) false
    [⟨[], [⟨0, 3, "PERSON".toList, []⟩, ⟨10, 14, "ORG".toList, []⟩]⟩]).1
    (by rw [evaluate_eq]; decide)

/-- C4: for a single example the scorer converts gold and predicted spans
to `(start, end)` tuple sets when `ignore_labels` is set, else
`(start, end, label)` tuple sets, and computes `tp = |gold ∩ pred|`,
`fp = |pred − gold|`, `fn = |gold − pred|`; in particular gold
`{(0,3,PERSON)}` against predicted `{(0,3,PERSON),(10,14,ORG)}` yields
tp = 1, fp = 1, fn = 0, precision = 0.5, recall = 1.0. -/
theorem scorer_set_semantics :
    (∀ (txt : Str) (gold : List RawSpan) (pred : List Entity)
        (dfn : Str → Metadata → Except PyErr Str),
      ((evaluate ⟨fun _ => (txt, ⟨pred⟩), dfn⟩ true [⟨txt, gold⟩]).true_positives
          = (toTupleSet2 (gold.map spanTriple) ∩ toTupleSet2 (pred.map entityTriple)).card ∧
        (evaluate ⟨fun _ => (txt, ⟨pred⟩), dfn⟩ true [⟨txt, gold⟩]).false_positives
          = ((toTupleSet2 (pred.map entityTriple)) \ (toTupleSet2 (gold.map spanTriple))).card ∧
        (evaluate ⟨fun _ => (txt, ⟨pred⟩), dfn⟩ true [⟨txt, gold⟩]).false_negatives
          = ((toTupleSet2 (gold.map spanTriple)) \ (toTupleSet2 (pred.map entityTriple))).card) ∧
      ((evaluate ⟨fun _ => (txt, ⟨pred⟩), dfn⟩ false [⟨txt, gold⟩]).true_positives
          = (toTupleSet3 (gold.map spanTriple) ∩ toTupleSet3 (pred.map entityTriple)).card ∧
        (evaluate ⟨fun _ => (txt, ⟨pred⟩), dfn⟩ false [⟨txt, gold⟩]).false_positives
          = ((toTupleSet3 (pred.map entityTriple)) \ (toTupleSet3 (gold.map spanTriple))).card ∧
        (evaluate ⟨fun _ => (txt, ⟨pred⟩), dfn⟩ false [⟨txt, gold⟩]).false_negatives
          = ((toTupleSet3 (gold.map spanTriple)) \ (toTupleSet3 (pred.map entityTriple))).card)) ∧
    ((evaluate (⟨fun _ => ([], ⟨[⟨0, 3, "PERSON".toList, [], []⟩,
          ⟨10, 14, "ORG".toList, [], []⟩]⟩), fun t _ => Except.ok t⟩ : Client) false
        [⟨[], [⟨0, 3, "PERSON".toList, []⟩]⟩]).true_positives = 1 ∧
      (evaluate (⟨fun _ => ([], ⟨[⟨0, 3, "PERSON".toList, [], []⟩,
          ⟨10, 14, "ORG".toList, [], []⟩]⟩), fun t _ => Except.ok t⟩ : Client) false
        [⟨[], [⟨0, 3, "PERSON".toList, []⟩]⟩]).false_positives = 1 ∧
      (evaluate (⟨fun _ => ([], ⟨[⟨0, 3, "PERSON".toList, [], []⟩,
          ⟨10, 14, "ORG".toList, [], []⟩]⟩), fun t _ => Except.ok t⟩ : Client) false
        [⟨[], [⟨0, 3, "PERSON".toList, []⟩]⟩]).false_negatives = 0 ∧
      (evaluate (⟨fun _ => ([], ⟨[⟨0, 3, "PERSON".toList, [], []⟩,
          ⟨10, 14, "ORG".toList, [], []⟩]⟩), fun t _ => Except.ok t⟩ : Client) false
        [⟨[], [⟨0, 3, "PERSON".toList, []⟩]⟩]).precision = 1/2 ∧
      (evaluate (⟨fun _ => ([], ⟨[⟨0, 3, "PERSON".toList, [], []⟩,
          ⟨10, 14, "ORG".toList, [], []⟩]⟩), fun t _ => Except.ok t⟩ : Client) false
        [⟨[], [⟨0, 3, "PERSON".toList, []⟩]⟩]).«recall» = 1) := by
  constructor
  · intro txt gold pred dfn
    refine ⟨⟨?_, ?_, ?_⟩, ?_, ?_, ?_⟩ <;>
      (rw [evaluate_eq]; exact Nat.zero_add _)
  · have ha : evalLoop (⟨fun _ => ([], ⟨[⟨0, 3, "PERSON".toList, [], []⟩,
        ⟨10, 14, "ORG".toList, [], []⟩]⟩), fun t _ => Except.ok t⟩ : Client) false
        [⟨[], [⟨0, 3, "PERSON".toList, []⟩]⟩] = ⟨1, 1, 0, 1, 1⟩ := by decide
    rw [evaluate_eq, ha]
    norm_num

/-! ### Amended C10: totality of `deanonymize` on well-shaped metadata -/

theorem replaceFirst_not_found (old new : Str) :
    ∀ s : Str, containsSub s old = false → replaceFirst old new s = s := by
  intro s
  induction s with
  | nil =>
    intro h
    cases hb : old.isPrefixOf [] with
    | true => rw [containsSub, if_pos hb] at h; cases h
    | false => rw [replaceFirst]; simp [hb]
  | cons c rest ih =>
    intro h
    cases hb : old.isPrefixOf (c :: rest) with
    | true => rw [containsSub, if_pos hb] at h; cases h
    | false =>
      have hrest : containsSub rest old = false := by
        rw [containsSub] at h
        simpa [hb] using h
      rw [replaceFirst]
      simp [hb, ih hrest]

/-- An entity record well-shaped for the replacement loop: a dict holding
string values at the `"replacement"` and `"text"` keys. -/
def isEntityDict : PyVal → Bool
  | PyVal.dict kvs =>
    (match dictGet kvs ('r' :: "eplacement".toList) with
     | some (PyVal.str _) => true
     | _ => false) &&
    (match dictGet kvs "text".toList with
     | some (PyVal.str _) => true
     | _ => false)
  | _ => false

/-- Metadata on which the replacement loop cannot raise: either not a
mapping at all, or a mapping without an iterable `"entities"` value only
when that value is absent, or an entity list of well-shaped records. -/
def wellShapedMeta : PyVal → Bool
  | PyVal.dict kvs =>
    match dictGet kvs "entities".toList with
    | Option.none => true
    | some (PyVal.list xs) => xs.all isEntityDict
    | some _ => false
  | _ => true

theorem deanonLoopPy_ok (xs : List PyVal) :
    ∀ r : Str, xs.all isEntityDict = true → ∃ r2, deanonLoopPy xs r = Except.ok r2 := by
  induction xs with
  | nil => intro r _; exact ⟨r, rfl⟩
  | cons e rest ih =>
    intro r hall
    rw [List.all_cons, Bool.and_eq_true] at hall
    obtain ⟨he, hrest⟩ := hall
    cases e with
    | dict kvs =>
      rw [isEntityDict, Bool.and_eq_true] at he
      obtain ⟨h1, h2⟩ := he
      cases hg1 : dictGet kvs ('r' :: "eplacement".toList) with
      | none => rw [hg1] at h1; cases h1
      | some rep =>
        cases hg2 : dictGet kvs "text".toList with
        | none => rw [hg2] at h2; cases h2
        | some orig =>
          cases rep with
          | str rs =>
            cases orig with
            | str os =>
              have hstep : entStep r (PyVal.dict kvs)
                  = Except.ok (replaceFirst rs os r) := by
                simp only [entStep, hg1, hg2]
              have key : deanonLoopPy (PyVal.dict kvs :: rest) r
                  = deanonLoopPy rest (replaceFirst rs os r) := by
                simp only [deanonLoopPy, hstep]
              rw [key]
              exact ih _ hrest
            | none => rw [hg2] at h2; cases h2
            | int n => rw [hg2] at h2; cases h2
            | bool b => rw [hg2] at h2; cases h2
            | list l => rw [hg2] at h2; cases h2
            | dict d => rw [hg2] at h2; cases h2
          | none => rw [hg1] at h1; cases h1
          | int n => rw [hg1] at h1; cases h1
          | bool b => rw [hg1] at h1; cases h1
          | list l => rw [hg1] at h1; cases h1
          | dict d => rw [hg1] at h1; cases h1
    | none => cases he
    | str s => cases he
    | int n => cases he
    | bool b => cases he
    | list l => cases he

/-- C10 (amended): `deanonymize` never raises **provided** each entity
record in the metadata's `"entities"` list is a mapping carrying string
`"replacement"` and `"text"` values (the unconditional claim fails: a
malformed entity record raises `KeyError`, see the counterexample); when
the metadata is not a mapping the input text is returned unchanged; and a
replacement whose placeholder does not occur in the working text is a
silent no-op that leaves the text unchanged. -/
theorem deanonymize_total_amended (text : Str) (m : PyVal)
    (h : wellShapedMeta m = true) :
    (∃ r, deanonymizePy text m = Except.ok r) ∧
    ((∀ kvs, m ≠ PyVal.dict kvs) → deanonymizePy text m = Except.ok text) ∧
    (∀ (w rep orig : Str), containsSub w rep = false →
      replaceFirst rep orig w = w) := by
  refine ⟨?_, ?_, fun w rep orig hw => replaceFirst_not_found rep orig w hw⟩
  · cases m with
    | dict kvs =>
      rw [wellShapedMeta] at h
      cases hg : dictGet kvs "entities".toList with
      | none =>
        refine ⟨text, ?_⟩
        rw [deanonymizePy]
        rw [hg]
        rfl
      | some v =>
        rw [hg] at h
        cases v with
        | list xs =>
          have := deanonLoopPy_ok xs.reverse text (by
            rw [List.all_eq_true] at h
            rw [List.all_eq_true]
            intro e he
            exact h e (List.mem_reverse.1 he))
          obtain ⟨r2, hr2⟩ := this
          refine ⟨r2, ?_⟩
          rw [deanonymizePy, hg]
          exact hr2
        | none => cases h
        | str s => cases h
        | int n => cases h
        | bool b => cases h
        | dict d => cases h
    | none => exact ⟨text, rfl⟩
    | str s => exact ⟨text, rfl⟩
    | int n => exact ⟨text, rfl⟩
    | bool b => exact ⟨text, rfl⟩
    | list l => exact ⟨text, rfl⟩
  · intro hnd
    cases m with
    | dict kvs => exact (hnd kvs rfl).elim
    | none => rfl
    | str s => rfl
    | int n => rfl
    | bool b => rfl
    | list l => rfl

/-- C10 witness: the amended theorem applied at a non-mapping metadata
value and a concrete absent placeholder. -/
theorem deanonymize_total_amended_witness :
    wellShapedMeta (PyVal.int 3) = true ∧
    deanonymizePy "ab".toList (PyVal.int 3) = Except.ok "ab".toList ∧
    replaceFirst "xy".toList "z".toList "ab".toList = "ab".toList := by
  have H := deanonymize_total_amended "ab".toList (PyVal.int 3) rfl
  exact ⟨rfl, H.2.1 (fun kvs hk => PyVal.noConfusion hk),
    H.2.2 "ab".toList "xy".toList "z".toList rfl⟩

/-! ### Characterization of `anonymize` (claim C2) -/

/-- Specification-side description of the recorded entity list: entity
number `i` (starting at `i0` in sorted order) stores the span's offsets and
label, the **original substring** `text[start:end]`, and the placeholder
`<label_i>`. -/
def specEntities (text : Str) (spans : List RawSpan) (i0 : Nat) : List Entity :=
  (List.enumFrom i0 spans).map (fun p =>
    ⟨p.2.start, p.2.«end», p.2.label, pySlice text p.2.start p.2.«end»,
      placeholder p.2.label p.1⟩)

/-- Specification-side description of the anonymized text: the
concatenation, over the sorted spans, of the inter-span gap
`text[cursor:start]` (the cursor being the previous span's `end`, initially
`c`) followed by that span's placeholder, with the tail `text[cursor:]`
appended after the last span. -/
def specAnonText (text : Str) (spans : List RawSpan) (c i0 : Nat) : Str :=
  (((c :: spans.map (fun s => s.«end»)).zip (List.enumFrom i0 spans)).map
    (fun q => pySlice text q.1 q.2.2.start ++ placeholder q.2.2.label q.2.1)).flatten
    ++ text.drop ((spans.map (fun s => s.«end»)).getLastD c)

theorem anonLoop_spec (text : Str) (l : List RawSpan) :
    ∀ c i, anonLoop text l c i = (specAnonText text l c i, specEntities text l i) := by
  induction l with
  | nil =>
    intro c i
    simp [anonLoop, specAnonText, specEntities]
  | cons sp rest ih =>
    intro c i
    rw [anonLoop]
    rw [ih sp.«end» (i + 1)]
    rw [specAnonText, specEntities, specAnonText, specEntities]
    simp only [List.enumFrom_cons, List.map_cons, List.zip_cons_cons, List.flatten_cons,
      List.getLastD_cons, Prod.mk.injEq]
    constructor
    · simp [List.append_assoc]
    · trivial

theorem mem_insertSpan (y sp : RawSpan) (l : List RawSpan) :
    y ∈ insertSpan sp l ↔ y = sp ∨ y ∈ l := by
  induction l with
  | nil => simp [insertSpan]
  | cons x xs ih =>
    rw [insertSpan]
    by_cases hx : x.start < sp.start
    · rw [if_pos hx]
      simp only [List.mem_cons, ih]
      try tauto
    · rw [if_neg hx]
      simp only [List.mem_cons]
      try tauto

theorem insertSpan_sorted (sp : RawSpan) (l : List RawSpan)
    (h : l.Pairwise (fun a b => a.start ≤ b.start)) :
    (insertSpan sp l).Pairwise (fun a b => a.start ≤ b.start) := by
  induction l with
  | nil => simp [insertSpan]
  | cons x xs ih =>
    rw [List.pairwise_cons] at h
    obtain ⟨hx, hxs⟩ := h
    rw [insertSpan]
    by_cases hc : x.start < sp.start
    · rw [if_pos hc]
      rw [List.pairwise_cons]
      refine ⟨fun y hy => ?_, ih hxs⟩
      rcases (mem_insertSpan y sp xs).1 hy with hy | hy
      · subst hy; omega
      · exact hx y hy
    · rw [if_neg hc]
      rw [List.pairwise_cons]
      refine ⟨fun y hy => ?_, List.pairwise_cons.2 ⟨hx, hxs⟩⟩
      rcases List.mem_cons.1 hy with hy | hy
      · subst hy; omega
      · have := hx y hy; omega

theorem sortSpans_sorted (l : List RawSpan) :
    (sortSpans l).Pairwise (fun a b => a.start ≤ b.start) := by
  induction l with
  | nil => simp [sortSpans]
  | cons sp rest ih => exact insertSpan_sorted sp (sortSpans rest) ih

theorem insertSpan_map_textField (f : RawSpan → Str) (sp : RawSpan) (l : List RawSpan) :
    insertSpan ⟨sp.start, sp.«end», sp.label, f sp⟩
        (l.map (fun t => ⟨t.start, t.«end», t.label, f t⟩))
      = (insertSpan sp l).map (fun t => ⟨t.start, t.«end», t.label, f t⟩) := by
  induction l with
  | nil => rfl
  | cons x xs ih =>
    rw [List.map_cons, insertSpan, insertSpan]
    by_cases hc : x.start < sp.start
    · rw [if_pos hc, if_pos hc, ih, List.map_cons]
    · rw [if_neg hc, if_neg hc]
      rfl

theorem sortSpans_map_textField (f : RawSpan → Str) (l : List RawSpan) :
    sortSpans (l.map (fun t => ⟨t.start, t.«end», t.label, f t⟩))
      = (sortSpans l).map (fun t => ⟨t.start, t.«end», t.label, f t⟩) := by
  induction l with
  | nil => rfl
  | cons sp rest ih =>
    rw [List.map_cons, sortSpans, sortSpans, ih, insertSpan_map_textField]

theorem anonLoop_map_textField (text : Str) (f : RawSpan → Str) (l : List RawSpan) :
    ∀ c i, anonLoop text (l.map (fun t => ⟨t.start, t.«end», t.label, f t⟩)) c i
      = anonLoop text l c i := by
  induction l with
  | nil => intro c i; rfl
  | cons sp rest ih =>
    intro c i
    rw [List.map_cons, anonLoop, anonLoop, ih sp.«end» (i + 1)]

/-- C2: `anonymize` discards degenerate spans (`end <= start`), sorts the
rest ascending by `start`, and with placeholder indices starting at 1 in
that order produces exactly the gap/placeholder/tail concatenation and the
entity list described by the specification — each entity stores the
original substring `text[start:end]` and its placeholder `<label_idx>`;
the recorded entities are in ascending-`start` order; and the
detector-supplied `text` field of the raw spans never influences the
result. -/
theorem anonymize_characterization (text : Str) (raws : List RawSpan) :
    ((anonymize text raws).1
      = specAnonText text
          (sortSpans (raws.filter (fun s => decide (s.start < s.«end»)))) 0 1) ∧
    ((anonymize text raws).2.entities
      = specEntities text
          (sortSpans (raws.filter (fun s => decide (s.start < s.«end»)))) 1) ∧
    ((anonymize text raws).2.entities).Pairwise (fun a b => a.start ≤ b.start) ∧
    (∀ f : RawSpan → Str,
      anonymize text (raws.map (fun sp => ⟨sp.start, sp.«end», sp.label, f sp⟩))
        = anonymize text raws) := by
  have he : ∀ (rs : List RawSpan), anonymize text rs
      = ((anonLoop text (sortSpans (rs.filter (fun s => decide (s.start < s.«end»)))) 0 1).1,
         ⟨(anonLoop text (sortSpans (rs.filter (fun s => decide (s.start < s.«end»)))) 0 1).2⟩) :=
    fun rs => rfl
  have hmain : anonLoop text
      (sortSpans (raws.filter (fun s => decide (s.start < s.«end»)))) 0 1
      = (specAnonText text
          (sortSpans (raws.filter (fun s => decide (s.start < s.«end»)))) 0 1,
         specEntities text
          (sortSpans (raws.filter (fun s => decide (s.start < s.«end»)))) 1) :=
    anonLoop_spec text _ 0 1
  refine ⟨?_, ?_, ?_, ?_⟩
  · rw [he, hmain]
  · rw [he, hmain]
  · rw [he, hmain]
    show (specEntities text _ 1).Pairwise _
    rw [specEntities, List.pairwise_map]
    have hsorted := sortSpans_sorted (raws.filter (fun s => decide (s.start < s.«end»)))
    have hsnd : (List.enumFrom 1
        (sortSpans (raws.filter (fun s => decide (s.start < s.«end»))))).map Prod.snd
        = sortSpans (raws.filter (fun s => decide (s.start < s.«end»))) :=
      List.enumFrom_map_snd 1 _
    have := (List.pairwise_map).1 (hsnd ▸ hsorted)
    exact this.imp (fun h => h)
  · intro f
    have hfil : ((raws.map fun sp =>
        (⟨sp.start, sp.«end», sp.label, f sp⟩ : RawSpan)).filter
          (fun s => decide (s.start < s.«end»)))
        = (raws.filter (fun s => decide (s.start < s.«end»))).map
            (fun sp => ⟨sp.start, sp.«end», sp.label, f sp⟩) := by
      rw [List.filter_map]
      rfl
    rw [he, he, hfil, sortSpans_map_textField, anonLoop_map_textField]

/-! ### Occurrence toolkit for the round-trip proof (claim C1) -/

theorem containsSub_true_iff (pat : Str) :
    ∀ s : Str, containsSub s pat = true ↔ ∃ i, pat <+: s.drop i := by
  intro s
  induction s with
  | nil =>
    rw [containsSub]
    constructor
    · intro h
      refine ⟨0, ?_⟩
      by_cases hp : pat.isPrefixOf []
      · exact List.isPrefixOf_iff_prefix.1 hp
      · rw [if_neg hp] at h; cases h
    · intro ⟨i, hi⟩
      rw [List.drop_nil] at hi
      rw [if_pos (List.isPrefixOf_iff_prefix.2 hi)]
  | cons c rest ih =>
    rw [containsSub]
    by_cases hp : pat.isPrefixOf (c :: rest)
    · rw [if_pos hp]
      exact ⟨fun _ => ⟨0, by simpa using List.isPrefixOf_iff_prefix.1 hp⟩, fun _ => rfl⟩
    · rw [if_neg hp]
      rw [ih]
      constructor
      · intro ⟨i, hi⟩
        exact ⟨i + 1, by simpa using hi⟩
      · intro ⟨i, hi⟩
        cases i with
        | zero =>
          rw [List.drop_zero] at hi
          exact absurd (List.isPrefixOf_iff_prefix.2 hi) hp
        | succ i' => exact ⟨i', by simpa using hi⟩

theorem containsSub_false_no_pre (pat s : Str) (h : containsSub s pat = false) :
    ∀ i, ¬ pat <+: s.drop i := by
  intro i hp
  have := (containsSub_true_iff pat s).2 ⟨i, hp⟩
  rw [h] at this
  cases this

theorem pre_drop_getElem (p s : Str) (i j : Nat) (hp : p <+: s.drop i)
    (hj : j < p.length) :
    ∃ h : i + j < s.length, s[i + j] = p[j] := by
  obtain ⟨t, ht⟩ := hp
  have hlen : s.length - i = p.length + t.length := by
    rw [← List.length_drop, ← ht]
    simp
  have hb : i + j < s.length := by omega
  have hd : j < (s.drop i).length := by
    rw [List.length_drop]
    omega
  have ha : j < (p ++ t).length := by
    rw [List.length_append]
    omega
  refine ⟨hb, ?_⟩
  have h1 : (s.drop i)[j] = s[i + j] := List.getElem_drop ..
  rw [← h1]
  have h2 : (s.drop i)[j] = (p ++ t)[j] := by
    congr 1
    exact ht.symm
  rw [h2]
  exact List.getElem_append_left _

theorem pre_trans_take (p Y : Str) (m : Nat) (h : p <+: Y.take m) : p <+: Y :=
  h.trans ⟨Y.drop m, List.take_append_drop m Y⟩

theorem pre_pySlice_drop (p text : Str) (a b pos : Nat)
    (h : p <+: (pySlice text a b).drop pos) : p <+: text.drop (a + pos) := by
  rw [pySlice] at h
  rw [List.drop_take] at h
  have := pre_trans_take p ((text.drop a).drop pos) _ h
  rw [List.drop_drop] at this
  exact this

/-! ### Decimal representation lemmas -/

theorem natStrAux_fuel : ∀ (f1 : Nat), ∀ (f2 n : Nat), n ≤ f1 → n ≤ f2 →
    natStrAux f1 n = natStrAux f2 n := by
  intro f1
  induction f1 with
  | zero =>
    intro f2 n h1 _
    have : n = 0 := by omega
    subst this
    cases f2 with
    | zero => rfl
    | succ f2' => rfl
  | succ f1 ih =>
    intro f2 n h1 h2
    cases n with
    | zero =>
      cases f2 with
      | zero => rfl
      | succ f2' => rfl
    | succ k =>
      cases f2 with
      | zero => omega
      | succ f2' =>
        rw [natStrAux, natStrAux]
        have hd : (k + 1) / 10 ≤ k := by
          have := Nat.div_lt_self (Nat.succ_pos k) (by omega : 1 < 10)
          omega
        rw [ih f2' ((k + 1) / 10) (by omega) (by omega)]

theorem natStrAux_digits : ∀ (f n : Nat), ∀ c ∈ natStrAux f n,
    ∃ d, d < 10 ∧ c = Nat.digitChar d := by
  intro f
  induction f with
  | zero => intro n c hc; cases hc
  | succ f ih =>
    intro n c hc
    cases n with
    | zero => cases hc
    | succ k =>
      rw [natStrAux] at hc
      rcases List.mem_append.1 hc with hc | hc
      · exact ih _ c hc
      · rcases List.mem_singleton.1 hc with rfl
        exact ⟨(k + 1) % 10, Nat.mod_lt _ (by omega), rfl⟩

theorem natStr_digits (n : Nat) : ∀ c ∈ natStr n, ∃ d, d < 10 ∧ c = Nat.digitChar d := by
  intro c hc
  rw [natStr] at hc
  by_cases h0 : n = 0
  · rw [if_pos h0] at hc
    rcases List.mem_singleton.1 hc with rfl
    exact ⟨0, by omega, rfl⟩
  · rw [if_neg h0] at hc
    exact natStrAux_digits n n c hc

theorem digitChar_not_special : ∀ d, d < 10 →
    Nat.digitChar d ≠ '<' ∧ Nat.digitChar d ≠ '>' ∧ Nat.digitChar d ≠ '_' := by decide

theorem digitChar_inj_lt : ∀ d1, d1 < 10 → ∀ d2, d2 < 10 →
    Nat.digitChar d1 = Nat.digitChar d2 → d1 = d2 := by decide

theorem snoc_inj (X Y : List Char) (a b : Char) (h : X ++ [a] = Y ++ [b]) :
    X = Y ∧ a = b := by
  have hr : a :: X.reverse = b :: Y.reverse := by
    have := congrArg List.reverse h
    simpa using this
  have h1 : a = b := (List.cons.injEq _ _ _ _ ▸ hr).1
  have h2 : X.reverse = Y.reverse := (List.cons.injEq _ _ _ _ ▸ hr).2
  exact ⟨List.reverse_injective h2, h1⟩

theorem natStrAux_ne_nil (f n : Nat) (h1 : 1 ≤ n) (h2 : n ≤ f) :
    natStrAux f n ≠ [] := by
  cases f with
  | zero => omega
  | succ f' =>
    cases n with
    | zero => omega
    | succ k =>
      rw [natStrAux]
      simp

theorem natStrAux_inj : ∀ (f1 : Nat), ∀ (f2 n m : Nat), n ≤ f1 → m ≤ f2 →
    natStrAux f1 n = natStrAux f2 m → n = m := by
  intro f1
  induction f1 with
  | zero =>
    intro f2 n m h1 h2 heq
    have hn : n = 0 := by omega
    subst hn
    cases m with
    | zero => rfl
    | succ j =>
      cases f2 with
      | zero => omega
      | succ f2' =>
        have hL : natStrAux 0 0 = [] := rfl
        have : natStrAux (f2' + 1) (j + 1) = [] := by rw [← heq, hL]
        exact absurd this (natStrAux_ne_nil _ _ (by omega) h2)
  | succ f1 ih =>
    intro f2 n m h1 h2 heq
    cases n with
    | zero =>
      cases m with
      | zero => rfl
      | succ j =>
        cases f2 with
        | zero => omega
        | succ f2' =>
          have hL : natStrAux (f1 + 1) 0 = [] := rfl
          have : natStrAux (f2' + 1) (j + 1) = [] := by rw [← heq, hL]
          exact absurd this (natStrAux_ne_nil _ _ (by omega) h2)
    | succ k =>
      cases m with
      | zero =>
        have hR : natStrAux f2 0 = [] := by
          cases f2 with
          | zero => rfl
          | succ f2' => rfl
        have : natStrAux (f1 + 1) (k + 1) = [] := by rw [heq, hR]
        exact absurd this (natStrAux_ne_nil _ _ (by omega) h1)
      | succ j =>
        cases f2 with
        | zero => omega
        | succ f2' =>
          rw [natStrAux, natStrAux] at heq
          obtain ⟨hpre, hdig⟩ := snoc_inj _ _ _ _ heq
          have hmod : (k + 1) % 10 = (j + 1) % 10 :=
            digitChar_inj_lt _ (Nat.mod_lt _ (by omega)) _ (Nat.mod_lt _ (by omega)) hdig
          have hdk : (k + 1) / 10 ≤ f1 := by
            have := Nat.div_lt_self (Nat.succ_pos k) (by omega : 1 < 10)
            omega
          have hdj : (j + 1) / 10 ≤ f2' := by
            have := Nat.div_lt_self (Nat.succ_pos j) (by omega : 1 < 10)
            omega
          have hdiv := ih f2' _ _ hdk hdj hpre
          have e1 := Nat.div_add_mod (k + 1) 10
          have e2 := Nat.div_add_mod (j + 1) 10
          omega

theorem natStr_inj (n m : Nat) (h : natStr n = natStr m) : n = m := by
  rw [natStr, natStr] at h
  by_cases hn : n = 0
  · rw [if_pos hn] at h
    by_cases hm : m = 0
    · omega
    · rw [if_neg hm] at h
      cases m with
      | zero => omega
      | succ j =>
        rw [natStrAux] at h
        have h0 : ([] : List Char) ++ ['0'] = natStrAux j ((j + 1) / 10)
            ++ [Nat.digitChar ((j + 1) % 10)] := by simpa using h
        obtain ⟨hpre, hdig⟩ := snoc_inj _ _ _ _ h0
        have hmod : (j + 1) % 10 = 0 := by
          have := digitChar_inj_lt 0 (by omega) ((j + 1) % 10)
            (Nat.mod_lt _ (by omega)) hdig
          omega
        have hdiv0 : (j + 1) / 10 = 0 := by
          by_contra hne
          exact natStrAux_ne_nil j ((j + 1) / 10) (by omega)
            (by
              have := Nat.div_lt_self (Nat.succ_pos j) (by omega : 1 < 10)
              omega) hpre.symm
        have := Nat.div_add_mod (j + 1) 10
        omega
  · rw [if_neg hn] at h
    by_cases hm : m = 0
    · rw [if_pos hm] at h
      cases n with
      | zero => omega
      | succ k =>
        rw [natStrAux] at h
        obtain ⟨hpre, hdig⟩ := snoc_inj (natStrAux k ((k + 1) / 10)) [] _ '0'
          (by simpa using h)
        have hmod : (k + 1) % 10 = 0 := by
          have := digitChar_inj_lt ((k + 1) % 10) (Nat.mod_lt _ (by omega)) 0
            (by omega) hdig
          omega
        have hdiv0 : (k + 1) / 10 = 0 := by
          by_contra hne
          exact natStrAux_ne_nil k ((k + 1) / 10) (by omega)
            (by
              have := Nat.div_lt_self (Nat.succ_pos k) (by omega : 1 < 10)
              omega) hpre
        have := Nat.div_add_mod (k + 1) 10
        omega
    · rw [if_neg hm] at h
      exact natStrAux_inj n m n m (le_refl n) (le_refl m) h

/-! ### Placeholder structure lemmas -/

/-- A label free of the placeholder delimiter characters. -/
def CleanLabel (L : Str) : Prop := '<' ∉ L ∧ '>' ∉ L

theorem placeholder_eq_concat (L : Str) (n : Nat) :
    placeholder L n = ('<' :: (L ++ '_' :: natStr n)) ++ ['>'] := by
  rw [placeholder]
  simp [List.append_assoc]

theorem placeholder_length_pos (L : Str) (n : Nat) : 0 < (placeholder L n).length := by
  rw [placeholder]
  simp

theorem placeholder_head (L : Str) (n : Nat) (h : 0 < (placeholder L n).length) :
    (placeholder L n)[0] = '<' := rfl

theorem placeholder_body_no_lt (L : Str) (n : Nat) (hL : '<' ∉ L) :
    ∀ c ∈ L ++ '_' :: (natStr n ++ ['>']), c ≠ '<' := by
  intro c hc
  rcases List.mem_append.1 hc with hc | hc
  · intro h; subst h; exact hL hc
  · rcases List.mem_cons.1 hc with rfl | hc
    · decide
    · rcases List.mem_append.1 hc with hc | hc
      · obtain ⟨d, hd, rfl⟩ := natStr_digits n c hc
        exact (digitChar_not_special d hd).1
      · rcases List.mem_singleton.1 hc with rfl
        decide

theorem placeholder_Q_no_gt (L : Str) (n : Nat) (hL : '>' ∉ L) :
    ∀ c ∈ '<' :: (L ++ '_' :: natStr n), c ≠ '>' := by
  intro c hc
  rcases List.mem_cons.1 hc with rfl | hc
  · decide
  · rcases List.mem_append.1 hc with hc | hc
    · intro h; subst h; exact hL hc
    · rcases List.mem_cons.1 hc with rfl | hc
      · decide
      · obtain ⟨d, hd, rfl⟩ := natStr_digits n c hc
        exact (digitChar_not_special d hd).2.1

theorem placeholder_lt_only_head (L : Str) (n : Nat) (hL : '<' ∉ L) (j : Nat)
    (hj : j < (placeholder L n).length)
    (hx : (placeholder L n)[j] = '<') : j = 0 := by
  cases j with
  | zero => rfl
  | succ k =>
    exfalso
    have hb : k < (L ++ '_' :: (natStr n ++ ['>'])).length := by
      have hlen : (placeholder L n).length
          = (L ++ '_' :: (natStr n ++ ['>'])).length + 1 := by
        simp [placeholder]
      omega
    have hel : (placeholder L n)[k + 1]
        = (L ++ '_' :: (natStr n ++ ['>']))[k] := rfl
    rw [hel] at hx
    exact placeholder_body_no_lt L n hL _ (List.getElem_mem hb) hx

theorem marker_block_inj (mk : Char) :
    ∀ (a b x y : List Char), mk ∉ a → mk ∉ b →
    a ++ mk :: x = b ++ mk :: y → a = b ∧ x = y := by
  intro a
  induction a with
  | nil =>
    intro b x y _ hb h
    cases b with
    | nil =>
      simp only [List.nil_append] at h
      exact ⟨rfl, by injection h⟩
    | cons d bs =>
      exfalso
      simp only [List.nil_append, List.cons_append] at h
      have : mk = d := by injection h
      exact hb (this ▸ List.mem_cons_self d bs)
  | cons c as ih =>
    intro b x y ha hb h
    cases b with
    | nil =>
      exfalso
      simp only [List.nil_append, List.cons_append] at h
      have : c = mk := by injection h
      exact ha (this ▸ List.mem_cons_self c as)
    | cons d bs =>
      simp only [List.cons_append] at h
      have hcd : c = d := by injection h
      have htl : as ++ mk :: x = bs ++ mk :: y := by injection h
      have ha' : mk ∉ as := fun hm => ha (List.mem_cons_of_mem c hm)
      have hb' : mk ∉ bs := fun hm => hb (List.mem_cons_of_mem d hm)
      obtain ⟨he, hxy⟩ := ih bs x y ha' hb' htl
      exact ⟨by rw [hcd, he], hxy⟩

theorem placeholder_pre_of_append (L1 L2 : Str) (n m : Nat)
    (h1 : CleanLabel L1) (h2 : CleanLabel L2) (T : Str)
    (hp : placeholder L1 n <+: placeholder L2 m ++ T) :
    placeholder L1 n = placeholder L2 m := by
  obtain ⟨t', ht⟩ := hp
  rw [placeholder_eq_concat, placeholder_eq_concat] at ht
  have ht' : ('<' :: (L1 ++ '_' :: natStr n)) ++ '>' :: t'
      = ('<' :: (L2 ++ '_' :: natStr m)) ++ '>' :: T := by
    simpa [List.append_assoc] using ht
  have hno1 : '>' ∉ '<' :: (L1 ++ '_' :: natStr n) :=
    fun hm => placeholder_Q_no_gt L1 n h1.2 _ hm rfl
  have hno2 : '>' ∉ '<' :: (L2 ++ '_' :: natStr m) :=
    fun hm => placeholder_Q_no_gt L2 m h2.2 _ hm rfl
  obtain ⟨hQ, _⟩ := marker_block_inj '>' _ _ _ _ hno1 hno2 ht'
  rw [placeholder_eq_concat, placeholder_eq_concat, hQ]

theorem natStr_reverse_no_underscore (n : Nat) : '_' ∉ (natStr n).reverse := by
  intro hm
  rw [List.mem_reverse] at hm
  obtain ⟨d, hd, hdc⟩ := natStr_digits n _ hm
  exact (digitChar_not_special d hd).2.2 hdc.symm

theorem placeholder_index_inj (L1 L2 : Str) (n m : Nat)
    (h : placeholder L1 n = placeholder L2 m) : n = m := by
  rw [placeholder_eq_concat, placeholder_eq_concat] at h
  obtain ⟨hQ, _⟩ := snoc_inj _ _ _ _ h
  have h2 : L1 ++ '_' :: natStr n = L2 ++ '_' :: natStr m := by injection hQ
  have h3 : (natStr n).reverse ++ '_' :: L1.reverse
      = (natStr m).reverse ++ '_' :: L2.reverse := by
    have := congrArg List.reverse h2
    simpa [List.reverse_append, List.append_assoc] using this
  obtain ⟨hrev, _⟩ := marker_block_inj '_' _ _ _ _
    (natStr_reverse_no_underscore n) (natStr_reverse_no_underscore m) h3
  exact natStr_inj n m (List.reverse_injective hrev)

/-! ### `replaceFirst` positioning lemma -/

theorem replaceFirst_of_isPrefixOf (old new s : Str) (h : old.isPrefixOf s = true) :
    replaceFirst old new s = new ++ s.drop old.length := by
  cases s with
  | nil =>
    rw [replaceFirst, if_pos h]
    simp
  | cons c rest => rw [replaceFirst, if_pos h]

theorem replaceFirst_at (old new : Str) :
    ∀ (A B : Str), (∀ i, i < A.length → ¬ old <+: ((A ++ (old ++ B)).drop i)) →
    replaceFirst old new (A ++ (old ++ B)) = A ++ (new ++ B) := by
  intro A
  induction A with
  | nil =>
    intro B _
    simp only [List.nil_append]
    rw [replaceFirst_of_isPrefixOf old new (old ++ B)
      (List.isPrefixOf_iff_prefix.2 (List.prefix_append old B))]
    rw [List.drop_left]
  | cons a A' ih =>
    intro B hA
    have h0 : ¬ old <+: (a :: (A' ++ (old ++ B))) := by
      have := hA 0 (by simp)
      simpa using this
    have hnp : old.isPrefixOf (a :: (A' ++ (old ++ B))) = false := by
      cases hb : old.isPrefixOf (a :: (A' ++ (old ++ B))) with
      | true => exact absurd (List.isPrefixOf_iff_prefix.1 hb) h0
      | false => rfl
    show replaceFirst old new (a :: (A' ++ (old ++ B))) = a :: (A' ++ (new ++ B))
    rw [replaceFirst]
    simp only [hnp, Bool.false_eq_true, if_false]
    rw [ih B]
    intro i hi
    have := hA (i + 1) (by simpa using Nat.succ_lt_succ hi)
    simpa using this

/-! ### Sorted chains of spans -/

/-- The spans form a left-to-right chain starting at cursor `c`: each span
starts no earlier than the cursor, and the cursor advances to its `end`. -/
def SChain : Nat → List RawSpan → Prop
  | _, [] => True
  | c, sp :: rest => c ≤ sp.start ∧ SChain sp.«end» rest

/-- The cursor after processing the spans: the last span's `end`, or `c`. -/
def endCursor (l : List RawSpan) (c : Nat) : Nat :=
  (l.map (fun s => s.«end»)).getLastD c

theorem endCursor_cons (sp : RawSpan) (l : List RawSpan) (c : Nat) :
    endCursor (sp :: l) c = endCursor l sp.«end» := by
  rw [endCursor, endCursor, List.map_cons, List.getLastD_cons]

theorem endCursor_snoc (l : List RawSpan) (s : RawSpan) (c : Nat) :
    endCursor (l ++ [s]) c = s.«end» := by
  rw [endCursor, List.map_append]
  simp

theorem insertSpan_perm (sp : RawSpan) (l : List RawSpan) :
    (insertSpan sp l).Perm (sp :: l) := by
  induction l with
  | nil => exact List.Perm.refl _
  | cons x xs ih =>
    rw [insertSpan]
    by_cases hc : x.start < sp.start
    · rw [if_pos hc]
      exact (ih.cons x).trans (List.Perm.swap sp x xs)
    · rw [if_neg hc]

theorem sortSpans_perm (l : List RawSpan) : (sortSpans l).Perm l := by
  induction l with
  | nil => exact List.Perm.refl _
  | cons sp rest ih => exact (insertSpan_perm sp (sortSpans rest)).trans (ih.cons sp)

theorem chain_of_sorted : ∀ (l : List RawSpan) (c : Nat),
    l.Pairwise (fun a b => a.start ≤ b.start) → l.Pairwise NonOverlap →
    (∀ sp ∈ l, sp.start < sp.«end») → (∀ sp ∈ l, c ≤ sp.start) → SChain c l := by
  intro l
  induction l with
  | nil => intro c _ _ _ _; trivial
  | cons sp rest ih =>
    intro c hs hn hwf hc
    rw [List.pairwise_cons] at hs hn
    refine ⟨hc sp (List.mem_cons_self sp rest), ih sp.«end» hs.2 hn.2
      (fun y hy => hwf y (List.mem_cons_of_mem _ hy)) ?_⟩
    intro y hy
    have h1 := hs.1 y hy
    have h3 := hwf y (List.mem_cons_of_mem _ hy)
    rcases hn.1 y hy with h2 | h2
    · exact h2
    · omega

theorem schain_append : ∀ (l1 l2 : List RawSpan) (c : Nat), SChain c (l1 ++ l2) →
    SChain c l1 ∧ SChain (endCursor l1 c) l2 := by
  intro l1
  induction l1 with
  | nil => intro l2 c h; exact ⟨trivial, h⟩
  | cons sp rest ih =>
    intro l2 c h
    obtain ⟨h1, h2⟩ := h
    obtain ⟨ha, hb⟩ := ih l2 sp.«end» h2
    refine ⟨⟨h1, ha⟩, ?_⟩
    rw [endCursor_cons]
    exact hb

/-! ### Core/tail split of the anonymize loop -/

/-- The anonymize loop without its trailing `text[cursor:]`. -/
def anonCore (text : Str) : List RawSpan → Nat → Nat → Str × List Entity
  | [], _, _ => ([], [])
  | sp :: rest, c, i =>
    let ph := placeholder sp.label i
    let t := anonCore text rest sp.«end» (i + 1)
    (pySlice text c sp.start ++ ph ++ t.1,
     ⟨sp.start, sp.«end», sp.label, pySlice text sp.start sp.«end», ph⟩ :: t.2)

theorem anonLoop_eq_core (text : Str) : ∀ (l : List RawSpan) (c i : Nat),
    anonLoop text l c i
      = ((anonCore text l c i).1 ++ text.drop (endCursor l c),
         (anonCore text l c i).2) := by
  intro l
  induction l with
  | nil => intro c i; simp [anonLoop, anonCore, endCursor]
  | cons sp rest ih =>
    intro c i
    rw [anonLoop, ih sp.«end» (i + 1), anonCore, endCursor_cons]
    simp [List.append_assoc]

theorem anonCore_snoc (text : Str) (s : RawSpan) : ∀ (l : List RawSpan) (c i : Nat),
    anonCore text (l ++ [s]) c i
      = ((anonCore text l c i).1 ++ pySlice text (endCursor l c) s.start
          ++ placeholder s.label (i + l.length),
         (anonCore text l c i).2
           ++ [⟨s.start, s.«end», s.label, pySlice text s.start s.«end»,
                placeholder s.label (i + l.length)⟩]) := by
  intro l
  induction l with
  | nil =>
    intro c i
    simp only [List.nil_append, List.length_nil, Nat.add_zero]
    rw [anonCore, anonCore]
    simp [anonCore, endCursor]
  | cons sp rest ih =>
    intro c i
    have hidx : i + 1 + rest.length = i + (rest.length + 1) := by omega
    rw [List.cons_append, anonCore, ih sp.«end» (i + 1), anonCore, endCursor_cons]
    simp only [List.length_cons, hidx, List.append_assoc, List.cons_append,
      Prod.mk.injEq]
    try exact ⟨rfl, rfl⟩

/-! ### No early occurrence of a later placeholder in the anonymized text -/

theorem getElem_idx_congr (l : List Char) (i j : Nat) (h : i = j) (hi : i < l.length)
    (hj : j < l.length) : l[i] = l[j] := by
  subst h
  rfl

theorem getElem_append_head (A B : Str) (hB : 0 < B.length)
    (hb : A.length < (A ++ B).length) : (A ++ B)[A.length] = B[0] := by
  rw [List.getElem_append_right (le_refl A.length)]
  simp

/-- In the anonymized text of a chain of spans whose placeholder indices
are all strictly below `np`, the placeholder `<Lp_np>` does not occur at
any position, provided it does not occur in the source text and all labels
are free of `<` and `>`. -/
theorem no_occ_anonLoop (text : Str) (Lp : Str) (np : Nat) (hLp : CleanLabel Lp)
    (hsub : containsSub text (placeholder Lp np) = false) :
    ∀ (l : List RawSpan) (c i : Nat), SChain c l →
    (∀ sp ∈ l, CleanLabel sp.label) →
    i + l.length ≤ np →
    ∀ pos, ¬ (placeholder Lp np <+: ((anonLoop text l c i).1.drop pos)) := by
  intro l
  induction l with
  | nil =>
    intro c i _ _ _ pos hp
    have hp' : placeholder Lp np <+: (text.drop c).drop pos := hp
    rw [List.drop_drop] at hp'
    exact containsSub_false_no_pre _ _ hsub _ hp'
  | cons sp rest ih =>
    intro c i hch hcl hidx pos hp
    obtain ⟨hc1, hc2⟩ := hch
    have hclsp : CleanLabel sp.label := hcl sp (List.mem_cons_self sp rest)
    have hS : (anonLoop text (sp :: rest) c i).1
        = pySlice text c sp.start ++ (placeholder sp.label i
          ++ (anonLoop text rest sp.«end» (i + 1)).1) := by
      rw [anonLoop]
      simp [List.append_assoc]
    rw [hS] at hp
    set P := placeholder Lp np with hPdef
    set ph := placeholder sp.label i with hphdef
    set G := pySlice text c sp.start with hGdef
    set S' := (anonLoop text rest sp.«end» (i + 1)).1 with hS'def
    have hPpos : 0 < P.length := placeholder_length_pos Lp np
    have hphpos : 0 < ph.length := placeholder_length_pos sp.label i
    have hmidpos : 0 < (ph ++ S').length := by
      rw [List.length_append]
      omega
    have hmid0 : (ph ++ S')[0] = '<' := by
      have h1 : (ph ++ S')[0] = ph[0] := List.getElem_append_left _
      rw [h1]
      exact placeholder_head sp.label i hphpos
    have hidx' : i + 1 + rest.length ≤ np := by
      simp only [List.length_cons] at hidx
      omega
    by_cases h1 : pos < G.length
    · by_cases h2 : pos + P.length ≤ G.length
      · have hd : (G ++ (ph ++ S')).drop pos = G.drop pos ++ (ph ++ S') :=
          List.drop_append_of_le_length (by omega)
        rw [hd] at hp
        have hpre : P <+: G.drop pos := by
          apply List.prefix_of_prefix_length_le hp (List.prefix_append _ _)
          rw [List.length_drop]
          omega
        have := pre_pySlice_drop P text c sp.start pos (hGdef ▸ hpre)
        exact containsSub_false_no_pre _ _ hsub _ this
      · have hj : G.length - pos < P.length := by omega
        obtain ⟨hb, hel⟩ := pre_drop_getElem P (G ++ (ph ++ S')) pos (G.length - pos) hp hj
        have hval : (G ++ (ph ++ S'))[pos + (G.length - pos)] = '<' := by
          rw [getElem_idx_congr (G ++ (ph ++ S')) (pos + (G.length - pos)) G.length
            (by omega) hb (by rw [List.length_append]; omega)]
          rw [getElem_append_head G (ph ++ S') hmidpos (by rw [List.length_append]; omega)]
          exact hmid0
        have hPj : P[G.length - pos] = '<' := by
          rw [← hel, hval]
        have := placeholder_lt_only_head Lp np hLp.1 (G.length - pos) hj hPj
        omega
    · have hd : (G ++ (ph ++ S')).drop pos = (ph ++ S').drop (pos - G.length) := by
        have hsplit : pos = G.length + (pos - G.length) := by omega
        conv_lhs => rw [hsplit]
        rw [List.drop_append]
      rw [hd] at hp
      by_cases hq0 : pos - G.length = 0
      · rw [hq0, List.drop_zero] at hp
        have heq := placeholder_pre_of_append Lp sp.label np i hLp hclsp S' hp
        have := placeholder_index_inj Lp sp.label np i heq
        omega
      · by_cases hq1 : pos - G.length < ph.length
        · obtain ⟨hb, hel⟩ := pre_drop_getElem P (ph ++ S') (pos - G.length) 0 hp hPpos
          have hP0 : P[0] = '<' := placeholder_head Lp np hPpos
          have hphb : pos - G.length < ph.length := hq1
          have hphq : (ph ++ S')[pos - G.length + 0] = ph[pos - G.length] := by
            rw [getElem_idx_congr (ph ++ S') (pos - G.length + 0) (pos - G.length)
              (by omega) hb (by omega)]
            exact List.getElem_append_left _
          have : ph[pos - G.length] = '<' := by
            rw [← hphq, hel, hP0]
          have := placeholder_lt_only_head sp.label i hclsp.1 (pos - G.length) hphb this
          omega
        · have hd2 : (ph ++ S').drop (pos - G.length)
              = S'.drop (pos - G.length - ph.length) := by
            have hsplit : pos - G.length = ph.length + (pos - G.length - ph.length) := by
              omega
            conv_lhs => rw [hsplit]
            rw [List.drop_append]
          rw [hd2] at hp
          exact ih sp.«end» (i + 1) hc2
            (fun y hy => hcl y (List.mem_cons_of_mem _ hy)) hidx' _ hp

/-! ### The round-trip law (claim C1) -/

theorem pySlice_splice (text : Str) (c a b : Nat) (h1 : c ≤ a) (h2 : a ≤ b) :
    pySlice text c a ++ (pySlice text a b ++ text.drop b) = text.drop c := by
  have hdab : (text.drop a).drop (b - a) = text.drop b := by
    rw [List.drop_drop]
    congr 1
    omega
  have hdca : (text.drop c).drop (a - c) = text.drop a := by
    rw [List.drop_drop]
    congr 1
    omega
  have inner : pySlice text a b ++ text.drop b = text.drop a := by
    rw [pySlice, ← hdab, List.take_append_drop]
  rw [inner, pySlice, ← hdca, List.take_append_drop]

theorem append_pre_append (A X Y : Str) (h : X <+: Y) : A ++ X <+: A ++ Y := by
  obtain ⟨t, ht⟩ := h
  exact ⟨t, by rw [List.append_assoc, ht]⟩

theorem deanon_fold_anonLoop (text : Str) :
    ∀ (l : List RawSpan), SChain 0 l →
    (∀ sp ∈ l, CleanLabel sp.label) →
    (∀ sp ∈ l, sp.start ≤ sp.«end») →
    (∀ sp ∈ l, ∀ m, 1 ≤ m → m ≤ l.length →
      containsSub text (placeholder sp.label m) = false) →
    ((anonLoop text l 0 1).2).reverse.foldl
      (fun result ent => replaceFirst ent.replacement ent.text result)
      (anonLoop text l 0 1).1 = text := by
  intro l
  induction l using List.reverseRecOn with
  | nil =>
    intro _ _ _ _
    simp [anonLoop]
  | append_singleton l' s ih =>
    intro hch hcl hse hsub
    have hcls : CleanLabel s.label := hcl s (by simp)
    obtain ⟨hch', hchS⟩ := schain_append l' [s] 0 hch
    obtain ⟨hcs, _⟩ := hchS
    have hses : s.start ≤ s.«end» := hse s (by simp)
    have hsubPn : containsSub text (placeholder s.label (1 + l'.length)) = false := by
      have := hsub s (by simp) (1 + l'.length) (by omega)
        (by simp only [List.length_append, List.length_cons, List.length_nil]; omega)
      exact this
    set c' := endCursor l' 0 with hc'
    set Pn := placeholder s.label (1 + l'.length) with hPn
    set On := pySlice text s.start s.«end» with hOn
    set G := pySlice text c' s.start with hG
    set T := text.drop s.«end» with hT
    set core1 := (anonCore text l' 0 1).1 with hcore1
    set core2 := (anonCore text l' 0 1).2 with hcore2
    set D := core1 ++ G with hD
    -- rewrite the snoc loop
    have hstep : anonLoop text (l' ++ [s]) 0 1
        = ((core1 ++ G ++ Pn) ++ T,
           core2 ++ [⟨s.start, s.«end», s.label, On, Pn⟩]) := by
      rw [anonLoop_eq_core, anonCore_snoc, endCursor_snoc]
    rw [hstep]
    simp only [List.reverse_append, List.reverse_singleton, List.singleton_append,
      List.foldl_cons]
    -- the accumulated first step is replaceFirst Pn On applied to the whole string
    show core2.reverse.foldl _ (replaceFirst Pn On ((core1 ++ G ++ Pn) ++ T)) = text
    -- no occurrence of Pn before its own position
    have hDpre : D <+: (anonLoop text l' 0 1).1 := by
      rw [anonLoop_eq_core]
      have hGpre : G <+: text.drop c' :=
        ⟨(text.drop c').drop (s.start - c'), by rw [hG, pySlice]; exact List.take_append_drop _ _⟩
      exact append_pre_append core1 G (text.drop (endCursor l' 0)) hGpre
    have hA : ∀ j, j < D.length → ¬ Pn <+: ((D ++ (Pn ++ T)).drop j) := by
      intro j hj hocc
      by_cases hcase : j + Pn.length ≤ D.length
      · have hd : (D ++ (Pn ++ T)).drop j = D.drop j ++ (Pn ++ T) :=
          List.drop_append_of_le_length (by omega)
        rw [hd] at hocc
        have hpre : Pn <+: D.drop j :=
          List.prefix_of_prefix_length_le hocc (List.prefix_append _ _)
            (by rw [List.length_drop]; omega)
        have hfin : Pn <+: ((anonLoop text l' 0 1).1).drop j := hpre.trans (hDpre.drop j)
        exact no_occ_anonLoop text s.label (1 + l'.length) hcls hsubPn l' 0 1 hch'
          (fun y hy => hcl y (List.mem_append_left _ hy)) (by omega) j hfin
      · have hk : D.length - j < Pn.length := by omega
        obtain ⟨hb, hel⟩ := pre_drop_getElem Pn (D ++ (Pn ++ T)) j (D.length - j) hocc hk
        have hPnpos : 0 < Pn.length := placeholder_length_pos s.label (1 + l'.length)
        have hmidpos : 0 < (Pn ++ T).length := by
          rw [List.length_append]
          omega
        have hval : (D ++ (Pn ++ T))[j + (D.length - j)] = '<' := by
          have hje : j + (D.length - j) = D.length := Nat.add_sub_cancel' (le_of_lt hj)
          have hDlt : D.length < (D ++ (Pn ++ T)).length := by
            conv_rhs => rw [List.length_append]
            exact Nat.lt_add_of_pos_right hmidpos
          rw [getElem_idx_congr (D ++ (Pn ++ T)) (j + (D.length - j)) D.length hje hb hDlt]
          rw [getElem_append_head D (Pn ++ T) hmidpos hDlt]
          have hmid : (Pn ++ T)[0] = Pn[0] := List.getElem_append_left _
          rw [hmid]
          exact placeholder_head s.label (1 + l'.length) hPnpos
        have hPk : Pn[D.length - j] = '<' := by rw [← hel, hval]
        have := placeholder_lt_only_head s.label (1 + l'.length) hcls.1 _ hk hPk
        omega
    have hassoc : (core1 ++ G ++ Pn) ++ T = D ++ (Pn ++ T) := by
      rw [hD]
      simp [List.append_assoc]
    have key : replaceFirst Pn On ((core1 ++ G ++ Pn) ++ T) = D ++ (On ++ T) := by
      rw [hassoc]
      exact replaceFirst_at Pn On D T hA
    rw [key]
    have hsplice : D ++ (On ++ T) = core1 ++ text.drop c' := by
      rw [hD, List.append_assoc]
      congr 1
      rw [hG, hOn, hT]
      exact pySlice_splice text c' s.start s.«end» hcs hses
    rw [hsplice]
    have hb1 : core1 ++ text.drop c' = (anonLoop text l' 0 1).1 := by
      rw [anonLoop_eq_core]
    have hb2 : core2 = (anonLoop text l' 0 1).2 := by
      rw [anonLoop_eq_core]
    rw [hb1, hb2]
    exact ih hch' (fun y hy => hcl y (List.mem_append_left _ hy))
      (fun y hy => hse y (List.mem_append_left _ hy))
      (fun y hy m hm1 hm2 => hsub y (List.mem_append_left _ hy) m hm1
        (by rw [List.length_append, List.length_cons]; omega))

/-- C1 (amended): the round trip `deanonymize (anonymize text spans) = text`
holds for every well-formed non-overlapping span set **provided** no span
label contains `<` or `>` and no placeholder `<label_m>` (built from a
span's label and an index `1 ≤ m ≤ n`) occurs as a substring of the
original text.  (Unconditionally the claimed law is false — see the
counterexample: a source text containing the literal placeholder string
breaks the first-occurrence replacement.) -/
theorem round_trip (text : Str) (raws : List RawSpan)
    (hwf : ∀ sp ∈ raws, sp.start < sp.«end» ∧ sp.«end» ≤ text.length)
    (hnov : raws.Pairwise NonOverlap)
    (hlab : ∀ sp ∈ raws, '<' ∉ sp.label ∧ '>' ∉ sp.label)
    (hph : ∀ sp ∈ raws, ∀ m ∈ List.range raws.length,
      containsSub text (placeholder sp.label (m + 1)) = false) :
    deanonymize (anonymize text raws).1 (anonymize text raws).2 = text := by
  have hfil : raws.filter (fun s => decide (s.start < s.«end»)) = raws := by
    rw [List.filter_eq_self]
    intro sp hsp
    exact decide_eq_true (hwf sp hsp).1
  have hperm : (sortSpans raws).Perm raws := sortSpans_perm raws
  have hmem : ∀ sp, sp ∈ sortSpans raws ↔ sp ∈ raws := fun sp => hperm.mem_iff
  have hsorted : (sortSpans raws).Pairwise (fun a b => a.start ≤ b.start) :=
    sortSpans_sorted raws
  have hnov' : (sortSpans raws).Pairwise NonOverlap :=
    (hperm.pairwise_iff (fun h => Or.symm h)).2 hnov
  have hchain : SChain 0 (sortSpans raws) :=
    chain_of_sorted (sortSpans raws) 0 hsorted hnov'
      (fun sp hsp => (hwf sp ((hmem sp).1 hsp)).1)
      (fun sp _ => Nat.zero_le _)
  have hlen : (sortSpans raws).length = raws.length := hperm.length_eq
  have hmain := deanon_fold_anonLoop text (sortSpans raws) hchain
    (fun sp hsp => ⟨(hlab sp ((hmem sp).1 hsp)).1, (hlab sp ((hmem sp).1 hsp)).2⟩)
    (fun sp hsp => le_of_lt (hwf sp ((hmem sp).1 hsp)).1)
    (fun sp hsp m hm1 hm2 => by
      have := hph sp ((hmem sp).1 hsp) (m - 1) (by rw [List.mem_range]; omega)
      have hm : m - 1 + 1 = m := by omega
      rw [hm] at this
      exact this)
  have he0 : anonymize text raws
      = ((anonLoop text (sortSpans (raws.filter (fun s => decide (s.start < s.«end»)))) 0 1).1,
         ⟨(anonLoop text (sortSpans (raws.filter (fun s => decide (s.start < s.«end»)))) 0 1).2⟩) :=
    rfl
  rw [hfil] at he0
  rw [he0]
  exact hmain

/-- C1 witness: the amended theorem applied at the text "Ion Popescu merge"
with the single well-formed span `(0, 11, PERSON)`, discharging every
hypothesis by computation. -/
theorem round_trip_witness :
    ((∀ sp ∈ [(⟨0, 11, "PERSON".toList, []⟩ : RawSpan)],
        sp.start < sp.«end» ∧ sp.«end» ≤ "Ion Popescu merge".toList.length) ∧
      List.Pairwise NonOverlap [(⟨0, 11, "PERSON".toList, []⟩ : RawSpan)] ∧
      (∀ sp ∈ [(⟨0, 11, "PERSON".toList, []⟩ : RawSpan)],
        '<' ∉ sp.label ∧ '>' ∉ sp.label)) ∧
    deanonymize
      (anonymize "Ion Popescu merge".toList [⟨0, 11, "PERSON".toList, []⟩]).1
      (anonymize "Ion Popescu merge".toList [⟨0, 11, "PERSON".toList, []⟩]).2
      = "Ion Popescu merge".toList :=
  ⟨⟨by decide, by simp, by decide⟩,
    round_trip "Ion Popescu merge".toList [⟨0, 11, "PERSON".toList, []⟩]
      (by decide) (by simp) (by decide) (by decide)⟩
